import Mathlib

/-!
Request-rewriting middlewares: `domainrobots` and `replacepathregex`.

A shallow embedding of the two Go packages of the repository.

* Go strings are modelled as lists of characters (`Str`).  Every token the code
  looks for (`$`, the decimal digits, `:`, `%s`) is ASCII, so a character-level
  reading of `strings.ReplaceAll`, `strings.Split` and of the regular
  expression `\$\d+` agrees with the byte-level one.
* The standard-library functions the handlers call (`fmt.Sprintf`,
  `strings.Split`, `strings.ReplaceAll`, `strings.TrimSpace`, `strconv.Itoa`,
  `Regexp.ReplaceAllString` for the fixed pattern `\$\d+`, `Header.Add`,
  `URL.String`) are modelled by executable functions in namespaces named after
  their Go packages.
* A compiled user pattern (`*regexp.Regexp`) is a value carrying its
  `FindStringSubmatch` function; `regexp.Compile` is a parameter of `New`.
* A handler's `ServeHTTP` returns the trace of its calls to `next.ServeHTTP`,
  each call recorded as the response writer and the request as it is at the
  moment of the call.
-/

/-- A Go string. -/
abbrev Str := List Char

/-! ## Library models -/

namespace fmt

/-- The function `fmt.Sprintf` restricted to the verbs `%s` (applied to string operands)
and `%%`: each `%s` is replaced by the next operand, `%%` by a percent sign, every other
character is copied. -/
def Sprintf : Str → List Str → Str
  | [], _ => []
  | '%' :: 's' :: rest, a :: args => a ++ Sprintf rest args
  | '%' :: 's' :: rest, [] => "%!s(MISSING)".toList ++ Sprintf rest []
  | '%' :: '%' :: rest, args => '%' :: Sprintf rest args
  | c :: rest, args => c :: Sprintf rest args

end fmt

namespace strconv

/-- The function `strconv.Itoa` on a non-negative integer: its decimal numeral. -/
def Itoa (n : Nat) : Str := Nat.toDigits 10 n

end strconv

namespace strings

/-- Left-to-right scan of `strings.ReplaceAll` for a non-empty `old`; the first
argument counts the characters of a just-matched `old` that are still to be skipped. -/
def replaceAux (old new : Str) : Nat → Str → Str
  | _, [] => []
  | k + 1, _ :: cs => replaceAux old new k cs
  | 0, c :: cs =>
    if old.isPrefixOf (c :: cs) then new ++ replaceAux old new (old.length - 1) cs
    else c :: replaceAux old new 0 cs

/-- The function `strings.ReplaceAll s old new`: every non-overlapping occurrence of
`old` in `s`, found from left to right, is replaced by `new`.  For an empty `old`
Go inserts `new` before every character and at the end. -/
def ReplaceAll (s old new : Str) : Str :=
  if old = [] then new ++ (s.map (fun c => c :: new)).flatten
  else replaceAux old new 0 s

/-- Puts a character in front of the first piece of a split. -/
def consPiece (c : Char) : List Str → List Str
  | [] => [[c]]
  | p :: ps => (c :: p) :: ps

/-- Left-to-right scan of `strings.Split` for a non-empty separator; the first
argument counts the characters of a just-matched separator still to be skipped. -/
def splitAux (sep : Str) : Nat → Str → List Str
  | _, [] => [[]]
  | k + 1, _ :: cs => splitAux sep k cs
  | 0, c :: cs =>
    if sep.isPrefixOf (c :: cs) then [] :: splitAux sep (sep.length - 1) cs
    else consPiece c (splitAux sep 0 cs)

/-- The function `strings.Split s sep`: the pieces of `s` between the occurrences of
`sep`.  For an empty `sep` Go splits after every character. -/
def Split (s sep : Str) : List Str :=
  if sep = [] then s.map (fun c => [c])
  else splitAux sep 0 s

/-- The predicate `unicode.IsSpace`: the white-space characters `strings.TrimSpace` removes. -/
def isSpace (c : Char) : Bool :=
  c = '\t' || c = '\n' || c.toNat = 0x0B || c.toNat = 0x0C || c = '\r' || c = ' ' ||
  c.toNat = 0x85 || c.toNat = 0xA0 || c.toNat = 0x1680 ||
  (0x2000 ≤ c.toNat && c.toNat ≤ 0x200A) ||
  c.toNat = 0x2028 || c.toNat = 0x2029 || c.toNat = 0x202F || c.toNat = 0x205F ||
  c.toNat = 0x3000

/-- The function `strings.TrimSpace`: leading and trailing white space removed. -/
def TrimSpace (s : Str) : Str :=
  ((s.dropWhile isSpace).reverse.dropWhile isSpace).reverse

end strings

namespace regexp

/-- A compiled pattern (`*regexp.Regexp`), given by what `FindStringSubmatch` returns:
the empty list (Go's `nil`) when the pattern does not match, otherwise the text of the
whole match followed by the texts of the capture groups 1..N. -/
structure Regexp where
  FindStringSubmatch : Str → List Str

/-- The class `\d` of Go's regular expressions: the ASCII digits. -/
def isDigit (c : Char) : Bool := '0' ≤ c && c ≤ '9'

/-- Whether a string begins with a digit. -/
def startsWithDigit : Str → Bool
  | [] => false
  | c :: _ => isDigit c

/-- Left-to-right scan of `ReplaceAllString(src, "")` for the pattern `\$\d+`; the flag
says that the scan is inside a match (a `$` and at least one digit have been consumed), so
further digits belong to the same greedy match. -/
def stripAux : Bool → Str → Str
  | _, [] => []
  | inside, c :: cs =>
    if inside && isDigit c then stripAux true cs
    else if c = '$' && startsWithDigit cs then stripAux true cs
    else c :: stripAux false cs

/-- The call `regexp.MustCompile("\\$\\d+").ReplaceAllString(src, "")`: every leftmost, greedy,
non-overlapping match of a `$` followed by one or more digits is deleted. -/
def stripBackReferences (src : Str) : Str := stripAux false src

/-- Whether a `$` is immediately followed by an ASCII digit somewhere in the string, that
is, whether the pattern `\$\d+` has a match in it. -/
def hasBackReference : Str → Bool
  | [] => false
  | c :: cs => (c == '$' && startsWithDigit cs) || hasBackReference cs

/-- The last occurrence of a non-empty `sep` in a string: the text before it and the text
after it. -/
def splitLast (sep : Str) : Str → Option (Str × Str)
  | [] => none
  | c :: cs =>
    match splitLast sep cs with
    | some (a, b) => some (c :: a, b)
    | none => if sep.isPrefixOf (c :: cs) then some ([], (c :: cs).drop sep.length) else none

/-- The compiled pattern `^(.*)/admin/(.*)$` of the test suite.  The pattern is anchored at
both ends and `.` matches every character but the line feed, so it matches exactly the
strings without line feed that contain `/admin/`; the first group is greedy, so it ends at
the last occurrence of `/admin/` and the second group is the text after it. -/
def adminPattern : Regexp :=
  ⟨fun s =>
    if '\n' ∈ s then []
    else
      match splitLast "/admin/".toList s with
      | some (a, b) => [s, a, b]
      | none => []⟩

end regexp

namespace http

/-- The type `http.Header`: a map from header names to their lists of values,
kept as an association list (the first entry of a name is the map's entry). -/
abbrev Header := List (Str × List Str)

/-- The values stored under a header name (`h[key]`; none when the name is absent). -/
def Header.Values : Header → Str → List Str
  | [], _ => []
  | (k, vs) :: rest, key => if k = key then vs else Header.Values rest key

/-- The method `Header.Add` for a name already in canonical form: the value is appended
to the values of the name. -/
def Header.Add : Header → Str → Str → Header
  | [], key, v => [(key, [v])]
  | (k, vs) :: rest, key, v =>
    if k = key then (k, vs ++ [v]) :: rest else (k, vs) :: Header.Add rest key v

/-- The fields of `url.URL` the handlers depend on. -/
structure URL where
  Scheme : Str
  Host : Str
  Path : Str
  RawQuery : Str
deriving DecidableEq

/-- The method `URL.String` for a URL without opaque part, user info or fragment and
whose path needs no escaping: `scheme://host/path?query`. -/
def URL.String (u : URL) : Str :=
  (if u.Scheme ≠ [] then u.Scheme ++ [':'] else []) ++
  (if u.Scheme ≠ [] ∨ u.Host ≠ [] then
    (if u.Host ≠ [] ∨ u.Path ≠ [] then ['/', '/'] else []) ++ u.Host
   else []) ++
  (if u.Path ≠ [] ∧ u.Path.head? ≠ some '/' ∧ u.Host ≠ [] then ['/'] else []) ++
  u.Path ++
  (if u.RawQuery ≠ [] then '?' :: u.RawQuery else [])

/-- The fields of `http.Request` a handler or the next stage can observe. -/
structure Request where
  Method : Str
  URL : URL
  Header : Header
  Body : Str
  Host : Str
deriving DecidableEq

/-- A handle on the `http.ResponseWriter` a handler is called with. -/
abbrev ResponseWriter := Nat

end http

/-! ## Package `domainrobots` (`src/domain_robots.go`) -/

namespace domainrobots

open http

/-- The struct `Config` of `domain_robots.go`. -/
structure Config where
  S3Bucket : Str
  S3Region : Str
  S3Endpoint : Str
  S3PrefixPath : Str
  RobotsTxtPath : Str
  SitemapPath : Str
  Protocol : Str
deriving DecidableEq

/-- The struct `DomainRobotsHandler`; its `next` field is represented by the trace that
`ServeHTTP` returns. -/
structure DomainRobotsHandler where
  config : Config
deriving DecidableEq

/-- The zero value `&Config{}`. -/
def emptyConfig : Config := ⟨[], [], [], [], [], [], []⟩

/-- The constructor `New` of `domain_robots.go`; `none` is the `nil` config. -/
def New (config : Option Config) : Except Str DomainRobotsHandler :=
  let config := match config with
    | none => emptyConfig
    | some c => c
  let config := if config.Protocol = [] then { config with Protocol := "https".toList } else config
  if config.S3Bucket = [] then
    .error "s3Bucket is required".toList
  else if config.RobotsTxtPath = [] ∧ config.SitemapPath = [] then
    .error "robotsTxtPath or sitemapPath is required".toList
  else
    .ok { config := config }

/-- The method `getTargetS3URL` of `domain_robots.go`. -/
def DomainRobotsHandler.getTargetS3URL (h : DomainRobotsHandler) (domain : Str) : Str :=
  let textFilePath :=
    if h.config.RobotsTxtPath ≠ [] then h.config.RobotsTxtPath else h.config.SitemapPath
  if h.config.S3PrefixPath = [] then
    fmt.Sprintf "https://%s.s3.%s.amazonaws.com/%s/%s".toList
      [h.config.S3Bucket, h.config.S3Region, domain, textFilePath]
  else
    fmt.Sprintf "https://%s.s3.%s.amazonaws.com/%s/%s/%s".toList
      [h.config.S3Bucket, h.config.S3Region, h.config.S3PrefixPath, domain, textFilePath]

/-- The method `ServeHTTP` of `domain_robots.go`: the calls made to `next.ServeHTTP`.
Indexing an empty slice with `[0]` panics, so in that case `next` is not called. -/
def DomainRobotsHandler.ServeHTTP (h : DomainRobotsHandler) (w : ResponseWriter)
    (r : Request) : List (ResponseWriter × Request) :=
  let originalHost := r.Host
  match strings.Split originalHost [':'] with
  | [] => []
  | domain :: _ =>
    let targetURL := h.getTargetS3URL domain
    if targetURL = [] then
      [(w, r)]
    else
      [(w, { r with Host := targetURL })]

end domainrobots

/-! ## Package `replacepathregex` (`src/replacepathregex.go`) -/

namespace replacepathregex

open http regexp

/-- The constant `ReplacedPathHeader`. -/
def ReplacedPathHeader : Str := "X-Replaced-Path".toList

/-- The struct `Config` of `replacepathregex.go`. -/
structure Config where
  Regex : Str
  Replacement : Str
deriving DecidableEq

/-- The function `CreateConfig`. -/
def CreateConfig : Config := ⟨[], []⟩

/-- The struct `ReplacePathRegexHandler`; `regex` is a pointer that may be `nil`, and the
`next` field is represented by the trace that `ServeHTTP` returns. -/
structure ReplacePathRegexHandler where
  replacement : Str
  regex : Option Regexp

/-- The constructor `New` of `replacepathregex.go`, given `regexp.Compile`. -/
def New (compile : Str → Except Str Regexp) (config : Config) :
    Except Str ReplacePathRegexHandler :=
  match compile (strings.TrimSpace config.Regex) with
  | .error err => .error err
  | .ok regex =>
    .ok { replacement := strings.TrimSpace config.Replacement, regex := some regex }

/-- The loop `for i, match := range matches` of `ServeHTTP`, entered at index `i`:
each iteration replaces every occurrence of `"$" + strconv.Itoa(i+1)` in the current
string by the group's text. -/
def substituteLoop : Nat → List Str → Str → Str
  | _, [], replacement => replacement
  | i, m :: rest, replacement =>
    substituteLoop (i + 1) rest
      (strings.ReplaceAll replacement ('$' :: strconv.Itoa (i + 1)) m)

/-- The method `ServeHTTP` of `replacepathregex.go`: the calls made to `next.ServeHTTP`. -/
def ReplacePathRegexHandler.ServeHTTP (h : ReplacePathRegexHandler) (w : ResponseWriter)
    (req : Request) : List (ResponseWriter × Request) :=
  match h.regex with
  | none => [(w, req)]
  | some regex =>
    if h.replacement.length > 0 then
      let req1 := { req with Header := req.Header.Add ReplacedPathHeader req.URL.Path }
      let found := regex.FindStringSubmatch req1.URL.String
      if found.length > 0 then
        let groups := found.drop 1
        let replacement := substituteLoop 0 groups h.replacement
        [(w, { req1 with URL := { req1.URL with Path := stripBackReferences replacement } })]
      else
        [(w, req1)]
    else
      [(w, req)]

/-! ### Templates and the substitution as the specification words it -/

/-- A piece of a replacement template: literal text, or a back-reference token `$i`. -/
inductive Segment where
  | lit (text : Str)
  | ref (index : Nat)

/-- The text of a template piece as the template spells it. -/
def Segment.render : Segment → Str
  | .lit text => text
  | .ref index => '$' :: strconv.Itoa index

/-- The text a template piece stands for once the groups are known: a token `$i` stands
for the text of group `i`. -/
def Segment.expand (groups : List Str) : Segment → Str
  | .lit text => text
  | .ref index => groups.getD (index - 1) []

/-- A template piece is admissible for `n` groups when it is a literal free of `$`, or a
token `$i` with `1 ≤ i ≤ n`. -/
def Segment.admissible (n : Nat) : Segment → Prop
  | .lit text => '$' ∉ text
  | .ref index => 1 ≤ index ∧ index ≤ n

/-- The template spelled by a list of pieces. -/
def renderTemplate (segments : List Segment) : Str :=
  (segments.map Segment.render).flatten

/-- The template with every token replaced by its group and the literals kept in place. -/
def expandTemplate (groups : List Str) (segments : List Segment) : Str :=
  (segments.map (Segment.expand groups)).flatten

/-- The first group, among `groups` numbered from `i + 1` on, whose token `$<number>` begins
the string: the token and the text of the group. -/
def tokenAt : Nat → List Str → Str → Option (Str × Str)
  | _, [], _ => none
  | i, g :: gs, s =>
    if ('$' :: strconv.Itoa (i + 1)).isPrefixOf s then some ('$' :: strconv.Itoa (i + 1), g)
    else tokenAt (i + 1) gs s

/-- One left-to-right pass over the template that replaces each token of a group (the groups
being numbered from `i + 1` on) by the text of the group and never looks at inserted text;
the second argument counts the characters of a just-replaced token still to be skipped. -/
def simultaneousFrom (i : Nat) (groups : List Str) : Nat → Str → Str
  | _, [] => []
  | k + 1, _ :: cs => simultaneousFrom i groups k cs
  | 0, c :: cs =>
    match tokenAt i groups (c :: cs) with
    | some (token, g) => g ++ simultaneousFrom i groups (token.length - 1) cs
    | none => c :: simultaneousFrom i groups 0 cs

/-- The substitution as the specification words it: every occurrence of a token `$i`,
`1 ≤ i ≤ N`, of the ORIGINAL template is replaced by the text of group `i`, all at once. -/
def simultaneousSubstitution (groups : List Str) (template : Str) : Str :=
  simultaneousFrom 0 groups 0 template

/-- Whether a `$` is immediately followed by another `$` somewhere in the string. -/
def adjacentDollars : Str → Bool
  | [] => false
  | c :: cs => (c == '$' && cs.head? == some '$') || adjacentDollars cs

/-- The group, among `groups` numbered from `i + 1` on, whose number is written with the
single digit `d`. -/
def groupOfDigit : Nat → List Str → Char → Option Str
  | _, [], _ => none
  | i, g :: gs, d => if d = Nat.digitChar (i + 1) then some g else groupOfDigit (i + 1) gs d

end replacepathregex

/-! ## Lemmas on the library models -/

namespace fmt

theorem Sprintf_four (b r d p : Str) :
    Sprintf "https://%s.s3.%s.amazonaws.com/%s/%s".toList [b, r, d, p] =
      "https://".toList ++ b ++ ".s3.".toList ++ r ++ ".amazonaws.com/".toList ++ d ++
        "/".toList ++ p := by
  simp [Sprintf]

theorem Sprintf_five (b r x d p : Str) :
    Sprintf "https://%s.s3.%s.amazonaws.com/%s/%s/%s".toList [b, r, x, d, p] =
      "https://".toList ++ b ++ ".s3.".toList ++ r ++ ".amazonaws.com/".toList ++ x ++
        "/".toList ++ d ++ "/".toList ++ p := by
  simp [Sprintf]

end fmt

namespace strings

theorem splitAux_colon (s : Str) :
    ∃ rest, splitAux [':'] 0 s = s.takeWhile (fun c => c ≠ ':') :: rest := by
  induction s with
  | nil => exact ⟨[], rfl⟩
  | cons c cs ih =>
    obtain ⟨rest, hrest⟩ := ih
    by_cases hc : c = ':'
    · subst hc
      exact ⟨splitAux [':'] 0 cs, by simp [splitAux, List.isPrefixOf]⟩
    · refine ⟨rest, ?_⟩
      have hc2 : ¬ (':' = c) := fun e => hc e.symm
      simp [splitAux, List.isPrefixOf, hc, hc2, hrest, consPiece]

theorem Split_colon (s : Str) :
    ∃ rest, Split s [':'] = s.takeWhile (fun c => c ≠ ':') :: rest := by
  simpa [Split] using splitAux_colon s

theorem takeWhile_ne_colon_append (d p : Str) (hd : ':' ∉ d) :
    (d ++ ':' :: p).takeWhile (fun c => c ≠ ':') = d := by
  induction d with
  | nil => simp
  | cons c cs ih =>
    have hc : c ≠ ':' := fun e => hd (by simp [e])
    have hcs : ':' ∉ cs := fun e => hd (by simp [e])
    have ih2 := ih hcs
    rw [List.cons_append, List.takeWhile_cons, ih2]
    simp [hc]

theorem takeWhile_ne_colon_self (d : Str) (hd : ':' ∉ d) :
    d.takeWhile (fun c => c ≠ ':') = d := by
  induction d with
  | nil => simp
  | cons c cs ih =>
    have hc : c ≠ ':' := fun e => hd (by simp [e])
    have hcs : ':' ∉ cs := fun e => hd (by simp [e])
    have ih2 := ih hcs
    rw [List.takeWhile_cons, ih2]
    simp [hc]

end strings

/-! ## Theorems on `domainrobots` -/

namespace domainrobots

open http

theorem getTargetS3URL_eq (h : DomainRobotsHandler) (d : Str) :
    h.getTargetS3URL d =
      "https://".toList ++ h.config.S3Bucket ++ ".s3.".toList ++ h.config.S3Region ++
        ".amazonaws.com/".toList ++
        (if h.config.S3PrefixPath = [] then [] else h.config.S3PrefixPath ++ "/".toList) ++
        d ++ "/".toList ++
        (if h.config.RobotsTxtPath ≠ [] then h.config.RobotsTxtPath
         else h.config.SitemapPath) := by
  unfold DomainRobotsHandler.getTargetS3URL
  by_cases hp : h.config.S3PrefixPath = []
  · simp only [hp, if_true, fmt.Sprintf_four]
    simp
  · simp only [hp, if_false, fmt.Sprintf_five]
    simp

theorem getTargetS3URL_ne_nil (h : DomainRobotsHandler) (d : Str) :
    h.getTargetS3URL d ≠ [] := by
  rw [getTargetS3URL_eq]
  simp

/-- C7: for every config and every domain `d`, with `rel` the robots path when it is
non-empty and the sitemap path otherwise, `getTargetS3URL` returns
`https://<bucket>.s3.<region>.amazonaws.com/<d>/<rel>` when `S3PrefixPath` is empty and
`https://<bucket>.s3.<region>.amazonaws.com/<prefix>/<d>/<rel>` when it is not
(also for the empty domain, which leaves `//` before `rel`). -/
theorem getTargetS3URL_format (h : DomainRobotsHandler) (d : Str) :
    h.getTargetS3URL d =
      if h.config.S3PrefixPath = [] then
        "https://".toList ++ h.config.S3Bucket ++ ".s3.".toList ++ h.config.S3Region ++
          ".amazonaws.com/".toList ++ d ++ "/".toList ++
          (if h.config.RobotsTxtPath ≠ [] then h.config.RobotsTxtPath
           else h.config.SitemapPath)
      else
        "https://".toList ++ h.config.S3Bucket ++ ".s3.".toList ++ h.config.S3Region ++
          ".amazonaws.com/".toList ++ h.config.S3PrefixPath ++ "/".toList ++ d ++ "/".toList ++
          (if h.config.RobotsTxtPath ≠ [] then h.config.RobotsTxtPath
           else h.config.SitemapPath) := by
  rw [getTargetS3URL_eq]
  by_cases hp : h.config.S3PrefixPath = []
  · simp [hp]
  · simp [hp]

/-- C8 (the code at the failing input): a config accepted by `New` whose `protocol` is
`http` still resolves `example.com` to an `https://` target, the same string the config
with `protocol` unset resolves it to. -/
theorem getTargetS3URL_ignores_protocol :
    ∃ h h0 : DomainRobotsHandler,
      New (some ⟨"test-bucket".toList, "us-east-1".toList, [], [], "robots.txt".toList, [],
        "http".toList⟩) = .ok h ∧
      New (some ⟨"test-bucket".toList, "us-east-1".toList, [], [], "robots.txt".toList, [],
        []⟩) = .ok h0 ∧
      h.config.Protocol = "http".toList ∧
      h0.config.Protocol = "https".toList ∧
      h.getTargetS3URL "example.com".toList =
        "https://test-bucket.s3.us-east-1.amazonaws.com/example.com/robots.txt".toList ∧
      h0.getTargetS3URL "example.com".toList = h.getTargetS3URL "example.com".toList :=
  ⟨_, _, rfl, rfl, rfl, rfl, by decide, by decide⟩

/-- C9: when `RobotsTxtPath` is non-empty the resolved target ends in `/` followed by
`RobotsTxtPath` and is the same whatever `SitemapPath` is; when `RobotsTxtPath` is empty
the target ends in `/` followed by `SitemapPath`. -/
theorem robots_path_takes_priority (c : Config) (d : Str) :
    (c.RobotsTxtPath ≠ [] →
      (DomainRobotsHandler.mk c).getTargetS3URL d =
        "https://".toList ++ c.S3Bucket ++ ".s3.".toList ++ c.S3Region ++
          ".amazonaws.com/".toList ++
          (if c.S3PrefixPath = [] then [] else c.S3PrefixPath ++ "/".toList) ++
          d ++ "/".toList ++ c.RobotsTxtPath ∧
      ∀ sitemap : Str,
        (DomainRobotsHandler.mk { c with SitemapPath := sitemap }).getTargetS3URL d =
          (DomainRobotsHandler.mk c).getTargetS3URL d) ∧
    (c.RobotsTxtPath = [] →
      (DomainRobotsHandler.mk c).getTargetS3URL d =
        "https://".toList ++ c.S3Bucket ++ ".s3.".toList ++ c.S3Region ++
          ".amazonaws.com/".toList ++
          (if c.S3PrefixPath = [] then [] else c.S3PrefixPath ++ "/".toList) ++
          d ++ "/".toList ++ c.SitemapPath) := by
  refine ⟨fun hr => ⟨?_, fun sitemap => ?_⟩, fun hr => ?_⟩
  · rw [getTargetS3URL_eq]; simp [hr]
  · rw [getTargetS3URL_eq, getTargetS3URL_eq]; simp [hr]
  · rw [getTargetS3URL_eq]; simp [hr]

/-- C9 at the inputs of the test suite: with both paths set only the robots path is used,
and with the robots path empty the sitemap path is used. -/
theorem robots_path_takes_priority_witness :
    (DomainRobotsHandler.mk ⟨"test-bucket".toList, "us-east-1".toList, [], [],
        "robots.txt".toList, "sitemap.xml".toList, []⟩).getTargetS3URL "example.com".toList =
      "https://test-bucket.s3.us-east-1.amazonaws.com/example.com/robots.txt".toList ∧
    (DomainRobotsHandler.mk ⟨"test-bucket".toList, "us-east-1".toList, [], [],
        [], "sitemap.xml".toList, []⟩).getTargetS3URL "example.com".toList =
      "https://test-bucket.s3.us-east-1.amazonaws.com/example.com/sitemap.xml".toList :=
  ⟨((robots_path_takes_priority ⟨"test-bucket".toList, "us-east-1".toList, [], [],
        "robots.txt".toList, "sitemap.xml".toList, []⟩ "example.com".toList).1
        (by decide)).1.trans (by decide),
   ((robots_path_takes_priority ⟨"test-bucket".toList, "us-east-1".toList, [], [],
        [], "sitemap.xml".toList, []⟩ "example.com".toList).2 (by decide)).trans (by decide)⟩

/-- C10: the request `next` receives is the incoming request with its host replaced by
`getTargetS3URL d`, where `d` is the part of the incoming host before its first `:` (all
of it when it has none); so for a colon-free `d` and any `p` the hosts `d ++ ":" ++ p` and
`d` are forwarded with the same host. -/
theorem serveHTTP_strips_port (h : DomainRobotsHandler) (w : ResponseWriter) (r : Request) :
    h.ServeHTTP w r =
      [(w, { r with Host := h.getTargetS3URL (r.Host.takeWhile (fun c => c ≠ ':')) })] ∧
    ∀ d p : Str, ':' ∉ d →
      (h.ServeHTTP w { r with Host := d ++ ':' :: p }).map (fun call => call.2.Host) =
        (h.ServeHTTP w { r with Host := d }).map (fun call => call.2.Host) := by
  have key : ∀ r : Request, h.ServeHTTP w r =
      [(w, { r with Host := h.getTargetS3URL (r.Host.takeWhile (fun c => c ≠ ':')) })] := by
    intro r
    obtain ⟨rest, hrest⟩ := strings.Split_colon r.Host
    simp only [DomainRobotsHandler.ServeHTTP, hrest]
    rw [if_neg (getTargetS3URL_ne_nil h _)]
  refine ⟨key r, fun d p hd => ?_⟩
  rw [key, key]
  dsimp only [List.map]
  rw [strings.takeWhile_ne_colon_append d p hd, strings.takeWhile_ne_colon_self d hd]

/-- C10 at the input of the test suite: the hosts `example.com:8080` and `example.com` are
forwarded with the same host. -/
theorem serveHTTP_strips_port_witness :
    ((DomainRobotsHandler.mk ⟨"test-bucket".toList, "us-east-1".toList, [], [],
        "robots.txt".toList, [], []⟩).ServeHTTP 0
        ⟨"GET".toList, ⟨[], [], "/robots.txt".toList, []⟩, [], [],
          "example.com".toList ++ ':' :: "8080".toList⟩).map (fun call => call.2.Host) =
    ((DomainRobotsHandler.mk ⟨"test-bucket".toList, "us-east-1".toList, [], [],
        "robots.txt".toList, [], []⟩).ServeHTTP 0
        ⟨"GET".toList, ⟨[], [], "/robots.txt".toList, []⟩, [], [],
          "example.com".toList⟩).map (fun call => call.2.Host) :=
  (serveHTTP_strips_port _ 0 ⟨"GET".toList, ⟨[], [], "/robots.txt".toList, []⟩, [], [], []⟩).2
    "example.com".toList "8080".toList (by decide)

end domainrobots

/-! ## Lemmas on `strings.ReplaceAll`, `strconv.Itoa` and the clean-up of `\$\d+` -/

namespace strings

theorem replaceAux_skip (old new : Str) (k : Nat) (s : Str) :
    replaceAux old new k s = replaceAux old new 0 (s.drop k) := by
  induction s generalizing k with
  | nil => cases k <;> rfl
  | cons c cs ih =>
    cases k with
    | zero => rfl
    | succ k => rw [List.drop_succ_cons, ← ih k]; rfl

theorem ReplaceAll_nil (d : Char) (t new : Str) : ReplaceAll [] (d :: t) new = [] := by
  simp [ReplaceAll, replaceAux]

theorem ReplaceAll_cons_ne (c d : Char) (t s new : Str) (h : c ≠ d) :
    ReplaceAll (c :: s) (d :: t) new = c :: ReplaceAll s (d :: t) new := by
  have h2 : ¬ (d = c) := fun e => h e.symm
  simp [ReplaceAll, replaceAux, List.isPrefixOf, h2]

theorem ReplaceAll_cons_not_isPrefixOf (d : Char) (t s new : Str)
    (h : t.isPrefixOf s = false) :
    ReplaceAll (d :: s) (d :: t) new = d :: ReplaceAll s (d :: t) new := by
  simp [ReplaceAll, replaceAux, List.isPrefixOf, h]

theorem ReplaceAll_token (d : Char) (t s new : Str) :
    ReplaceAll (d :: (t ++ s)) (d :: t) new = new ++ ReplaceAll s (d :: t) new := by
  have hp : t.isPrefixOf (t ++ s) = true := by
    induction t with
    | nil => simp [List.isPrefixOf]
    | cons a t ih => simp [List.isPrefixOf, ih]
  simp only [ReplaceAll, replaceAux, List.isPrefixOf, hp]
  simp [replaceAux_skip _ new t.length]

end strings

namespace strconv

theorem Itoa_digit (n : Nat) (h1 : 1 ≤ n) (h9 : n ≤ 9) : Itoa n = [Nat.digitChar n] := by
  interval_cases n <;> rfl

theorem digitChar_ne_dollar (n : Nat) (h9 : n ≤ 9) : Nat.digitChar n ≠ '$' := by
  interval_cases n <;> decide

theorem digitChar_inj (n m : Nat) (hn : n ≤ 9) (hm : m ≤ 9)
    (h : Nat.digitChar n = Nat.digitChar m) : n = m := by
  interval_cases n <;> interval_cases m <;> first | rfl | (exact absurd h (by decide))

end strconv

namespace regexp

theorem stripAux_false_of_no_dollar (s : Str) (h : '$' ∉ s) : stripAux false s = s := by
  induction s with
  | nil => rfl
  | cons c cs ih =>
    have hc : c ≠ '$' := fun e => h (by simp [e])
    have hcs : '$' ∉ cs := fun e => h (by simp [e])
    simp [stripAux, hc, ih hcs]

theorem stripBackReferences_of_no_dollar (s : Str) (h : '$' ∉ s) :
    stripBackReferences s = s :=
  stripAux_false_of_no_dollar s h

end regexp

/-! ## Lemmas on the substitution loop of `replacepathregex` -/

namespace replacepathregex

open http regexp

/-- Induction over a string that treats a `$` together with the character after it. -/
theorem dollar_induction {P : Str → Prop} (nil : P [])
    (other : ∀ c s, c ≠ '$' → P s → P (c :: s)) (single : P ['$'])
    (pair : ∀ d s, P s → P (d :: s) → P ('$' :: d :: s)) : ∀ s, P s := by
  have key : ∀ s, P s ∧ ∀ c, P (c :: s) := by
    intro s
    induction s with
    | nil =>
      refine ⟨nil, fun c => ?_⟩
      by_cases hc : c = '$'
      · subst hc; exact single
      · exact other c [] hc nil
    | cons d s ih =>
      refine ⟨ih.2 d, fun c => ?_⟩
      by_cases hc : c = '$'
      · subst hc; exact pair d s ih.1 (ih.2 d)
      · exact other c (d :: s) hc (ih.2 d)
  exact fun s => (key s).1

theorem tokenAt_cons_ne (i : Nat) (gs : List Str) (c : Char) (s : Str) (hc : c ≠ '$') :
    tokenAt i gs (c :: s) = none := by
  induction gs generalizing i with
  | nil => rfl
  | cons g gs ih =>
    have h2 : ¬ ('$' = c) := fun e => hc e.symm
    simp [tokenAt, List.isPrefixOf, h2, ih]

theorem tokenAt_dollar (i : Nat) (gs : List Str) (h : i + gs.length ≤ 9) :
    tokenAt i gs ['$'] = none := by
  induction gs generalizing i with
  | nil => rfl
  | cons g gs ih =>
    have hlen : i + 1 + gs.length ≤ 9 := by simp only [List.length_cons] at h; omega
    have hi : strconv.Itoa (i + 1) = [Nat.digitChar (i + 1)] :=
      strconv.Itoa_digit (i + 1) (by omega) (by omega)
    simp [tokenAt, hi, List.isPrefixOf, ih (i + 1) hlen]

theorem tokenAt_dollar_cons (i : Nat) (gs : List Str) (d : Char) (s : Str)
    (h : i + gs.length ≤ 9) :
    tokenAt i gs ('$' :: d :: s) = (groupOfDigit i gs d).map (fun g => (['$', d], g)) := by
  induction gs generalizing i with
  | nil => rfl
  | cons g gs ih =>
    have hlen : i + 1 + gs.length ≤ 9 := by simp only [List.length_cons] at h; omega
    have hi : strconv.Itoa (i + 1) = [Nat.digitChar (i + 1)] :=
      strconv.Itoa_digit (i + 1) (by omega) (by omega)
    by_cases hd : d = Nat.digitChar (i + 1)
    · simp [tokenAt, groupOfDigit, hi, List.isPrefixOf, hd]
    · have hd2 : ¬ (Nat.digitChar (i + 1) = d) := fun e => hd e.symm
      simp [tokenAt, groupOfDigit, hi, List.isPrefixOf, hd, hd2, ih (i + 1) hlen]

theorem simultaneousFrom_cons_ne (i : Nat) (gs : List Str) (c : Char) (s : Str)
    (hc : c ≠ '$') :
    simultaneousFrom i gs 0 (c :: s) = c :: simultaneousFrom i gs 0 s := by
  simp [simultaneousFrom, tokenAt_cons_ne i gs c s hc]

theorem simultaneousFrom_dollar (i : Nat) (gs : List Str) (h : i + gs.length ≤ 9) :
    simultaneousFrom i gs 0 ['$'] = ['$'] := by
  simp [simultaneousFrom, tokenAt_dollar i gs h]

theorem simultaneousFrom_dollar_cons (i : Nat) (gs : List Str) (d : Char) (s : Str)
    (h : i + gs.length ≤ 9) :
    simultaneousFrom i gs 0 ('$' :: d :: s) =
      match groupOfDigit i gs d with
      | some g => g ++ simultaneousFrom i gs 0 s
      | none => '$' :: simultaneousFrom i gs 0 (d :: s) := by
  rw [simultaneousFrom, tokenAt_dollar_cons i gs d s h]
  cases hg : groupOfDigit i gs d with
  | none => simp
  | some g => simp [simultaneousFrom]

theorem simultaneousFrom_append_no_dollar (i : Nat) (gs : List Str) (u s : Str)
    (hu : '$' ∉ u) :
    simultaneousFrom i gs 0 (u ++ s) = u ++ simultaneousFrom i gs 0 s := by
  induction u with
  | nil => rfl
  | cons c u ih =>
    have hc : c ≠ '$' := fun e => hu (by simp [e])
    have hu2 : '$' ∉ u := fun e => hu (by simp [e])
    rw [List.cons_append, simultaneousFrom_cons_ne i gs c _ hc, ih hu2, List.cons_append]

theorem simultaneousFrom_no_groups (i : Nat) (s : Str) :
    simultaneousFrom i [] 0 s = s := by
  induction s with
  | nil => rfl
  | cons c cs ih => simp [simultaneousFrom, tokenAt, ih]

theorem adjacentDollars_cons_ne (c : Char) (s : Str) (hc : c ≠ '$') :
    adjacentDollars (c :: s) = adjacentDollars s := by
  simp [adjacentDollars, hc]

theorem adjacentDollars_append_no_dollar (u s : Str) (hu : '$' ∉ u) :
    adjacentDollars (u ++ s) = adjacentDollars s := by
  induction u with
  | nil => rfl
  | cons c u ih =>
    have hc : c ≠ '$' := fun e => hu (by simp [e])
    have hu2 : '$' ∉ u := fun e => hu (by simp [e])
    rw [List.cons_append, adjacentDollars_cons_ne c _ hc, ih hu2]

theorem adjacentDollars_dollar_cons (d : Char) (s : Str) :
    adjacentDollars ('$' :: d :: s) = (d == '$' || adjacentDollars (d :: s)) := by
  simp [adjacentDollars]

end replacepathregex

namespace strings

theorem ReplaceAll_dollar_single (dj : Char) (g : Str) :
    ReplaceAll ['$'] ['$', dj] g = ['$'] := by
  rw [ReplaceAll_cons_not_isPrefixOf '$' [dj] [] g (by simp [List.isPrefixOf]),
    ReplaceAll_nil]

theorem ReplaceAll_dollar_same (dj : Char) (s g : Str) :
    ReplaceAll ('$' :: dj :: s) ['$', dj] g = g ++ ReplaceAll s ['$', dj] g :=
  ReplaceAll_token '$' [dj] s g

theorem ReplaceAll_dollar_other (d dj : Char) (s g : Str) (hd : d ≠ dj) :
    ReplaceAll ('$' :: d :: s) ['$', dj] g = '$' :: ReplaceAll (d :: s) ['$', dj] g := by
  have h2 : ¬ (dj = d) := fun e => hd e.symm
  exact ReplaceAll_cons_not_isPrefixOf '$' [dj] (d :: s) g (by simp [List.isPrefixOf, h2])

end strings

namespace replacepathregex

open http regexp strings

theorem adjacentDollars_ReplaceAll (dj : Char) (g : Str) (hg : '$' ∉ g) (s : Str) :
    adjacentDollars s = false → adjacentDollars (ReplaceAll s ['$', dj] g) = false := by
  induction s using dollar_induction with
  | nil => intro _; rw [ReplaceAll_nil]; rfl
  | other c s hc ih =>
    intro h
    rw [adjacentDollars_cons_ne c s hc] at h
    rw [ReplaceAll_cons_ne c '$' [dj] s g hc, adjacentDollars_cons_ne c _ hc]
    exact ih h
  | single => intro _; rw [ReplaceAll_dollar_single]; rfl
  | pair d s ih1 _ =>
    intro h
    rw [adjacentDollars_dollar_cons] at h
    have hd : d ≠ '$' := by
      intro e
      simp [e] at h
    have hs : adjacentDollars s = false := by
      rw [adjacentDollars_cons_ne d s hd] at h
      simpa [hd] using h
    by_cases hdj : d = dj
    · subst hdj
      rw [ReplaceAll_dollar_same, adjacentDollars_append_no_dollar g _ hg]
      exact ih1 hs
    · rw [ReplaceAll_dollar_other d dj s g hdj, ReplaceAll_cons_ne d '$' [dj] s g hd,
        adjacentDollars_dollar_cons, adjacentDollars_cons_ne d _ hd, ih1 hs]
      simp [hd]

theorem simultaneousFrom_ReplaceAll (i : Nat) (g : Str) (gs : List Str)
    (h : i + 1 + gs.length ≤ 9) (hg : '$' ∉ g) (s : Str) :
    adjacentDollars s = false →
    simultaneousFrom (i + 1) gs 0 (ReplaceAll s ['$', Nat.digitChar (i + 1)] g) =
      simultaneousFrom i (g :: gs) 0 s := by
  have hlen : i + (g :: gs).length ≤ 9 := by simp only [List.length_cons]; omega
  induction s using dollar_induction with
  | nil => intro _; rw [ReplaceAll_nil]; rfl
  | other c s hc ih =>
    intro hs
    rw [adjacentDollars_cons_ne c s hc] at hs
    rw [ReplaceAll_cons_ne c '$' _ s g hc, simultaneousFrom_cons_ne _ _ c _ hc,
      simultaneousFrom_cons_ne _ _ c _ hc, ih hs]
  | single =>
    intro _
    rw [ReplaceAll_dollar_single, simultaneousFrom_dollar _ _ h,
      simultaneousFrom_dollar _ _ hlen]
  | pair d s ih1 _ =>
    intro hs
    rw [adjacentDollars_dollar_cons] at hs
    have hd : d ≠ '$' := by
      intro e
      simp [e] at hs
    have hs2 : adjacentDollars s = false := by
      rw [adjacentDollars_cons_ne d s hd] at hs
      simpa [hd] using hs
    rw [simultaneousFrom_dollar_cons i (g :: gs) d s hlen]
    by_cases hdj : d = Nat.digitChar (i + 1)
    · subst hdj
      rw [ReplaceAll_dollar_same, simultaneousFrom_append_no_dollar _ _ g _ hg, ih1 hs2]
      simp [groupOfDigit]
    · rw [ReplaceAll_dollar_other d _ s g hdj, ReplaceAll_cons_ne d '$' _ s g hd,
        simultaneousFrom_dollar_cons (i + 1) gs d _ h]
      have hgo : groupOfDigit i (g :: gs) d = groupOfDigit (i + 1) gs d := by
        simp [groupOfDigit, hdj]
      rw [hgo]
      cases groupOfDigit (i + 1) gs d with
      | none =>
        simp only []
        rw [simultaneousFrom_cons_ne _ _ d _ hd, simultaneousFrom_cons_ne _ _ d _ hd, ih1 hs2]
      | some g2 =>
        simp only []
        rw [ih1 hs2]

/-- On a template without `$$` and with groups free of `$`, at most nine of them, the loop of
`ServeHTTP` computes the single simultaneous pass. -/
theorem substituteLoop_eq_simultaneousFrom (gs : List Str) :
    ∀ (i : Nat) (s : Str), i + gs.length ≤ 9 → (∀ g ∈ gs, '$' ∉ g) →
      adjacentDollars s = false → substituteLoop i gs s = simultaneousFrom i gs 0 s := by
  induction gs with
  | nil =>
    intro i s _ _ _
    rw [simultaneousFrom_no_groups]
    rfl
  | cons g gs ih =>
    intro i s hlen hgs hs
    have hlen2 : i + 1 + gs.length ≤ 9 := by simp only [List.length_cons] at hlen; omega
    have hg : '$' ∉ g := hgs g (by simp)
    have hi : strconv.Itoa (i + 1) = [Nat.digitChar (i + 1)] :=
      strconv.Itoa_digit (i + 1) (by omega) (by omega)
    rw [substituteLoop, hi,
      ih (i + 1) _ hlen2 (fun g2 h2 => hgs g2 (by simp [h2]))
        (adjacentDollars_ReplaceAll _ g hg s hs),
      simultaneousFrom_ReplaceAll i g gs hlen2 hg s hs]

end replacepathregex

namespace http

theorem Header.Values_Add (h : Header) (key v : Str) :
    (h.Add key v).Values key = h.Values key ++ [v] := by
  induction h with
  | nil => simp [Header.Add, Header.Values]
  | cons e rest ih =>
    obtain ⟨k, vs⟩ := e
    by_cases hk : k = key
    · simp [Header.Add, Header.Values, hk]
    · simp [Header.Add, Header.Values, hk, ih]

end http

namespace replacepathregex

open http regexp strings

theorem groupOfDigit_digitChar (gs : List Str) :
    ∀ (i j : Nat), i + gs.length ≤ 9 → j < gs.length →
      groupOfDigit i gs (Nat.digitChar (i + 1 + j)) = some (gs.getD j []) := by
  induction gs with
  | nil => intro i j _ hj; simp at hj
  | cons g gs ih =>
    intro i j hlen hj
    simp only [List.length_cons] at hlen hj
    cases j with
    | zero => simp [groupOfDigit]
    | succ j =>
      have hne : Nat.digitChar (i + 1 + (j + 1)) ≠ Nat.digitChar (i + 1) := by
        intro e
        have := strconv.digitChar_inj _ _ (by omega) (by omega) e
        omega
      have hrec := ih (i + 1) j (by omega) (by omega)
      have harith : i + 1 + 1 + j = i + 1 + (j + 1) := by omega
      rw [harith] at hrec
      simp [groupOfDigit, hne, hrec]

theorem Segment.render_ref (n index : Nat) (h : Segment.admissible n (.ref index))
    (hn : n ≤ 9) : Segment.render (.ref index) = ['$', Nat.digitChar index] := by
  obtain ⟨h1, h2⟩ := h
  simp [Segment.render, strconv.Itoa_digit index h1 (by omega)]

theorem getD_no_dollar (groups : List Str) (hgroups : ∀ g ∈ groups, '$' ∉ g) (j : Nat) :
    '$' ∉ groups.getD j [] := by
  by_cases hj : j < groups.length
  · rw [List.getD_eq_getElem _ _ hj]
    exact hgroups _ (List.getElem_mem hj)
  · rw [List.getD_eq_default _ _ (by omega)]
    simp

theorem expandTemplate_no_dollar (groups : List Str) (hgroups : ∀ g ∈ groups, '$' ∉ g)
    (segments : List Segment) (hsegs : ∀ seg ∈ segments, seg.admissible groups.length) :
    '$' ∉ expandTemplate groups segments := by
  induction segments with
  | nil => simp [expandTemplate]
  | cons seg segs ih =>
    have hrest := ih (fun s hs => hsegs s (by simp [hs]))
    have hseg := hsegs seg (by simp)
    simp only [expandTemplate, List.map_cons, List.flatten_cons, List.mem_append, not_or]
    refine ⟨?_, hrest⟩
    cases seg with
    | lit text => exact hseg
    | ref index => exact getD_no_dollar groups hgroups _

theorem adjacentDollars_renderTemplate (n : Nat) (hn : n ≤ 9) (segments : List Segment)
    (hsegs : ∀ seg ∈ segments, seg.admissible n) :
    adjacentDollars (renderTemplate segments) = false := by
  induction segments with
  | nil => rfl
  | cons seg segs ih =>
    have hrest := ih (fun s hs => hsegs s (by simp [hs]))
    have hseg := hsegs seg (by simp)
    simp only [renderTemplate, List.map_cons, List.flatten_cons]
    cases seg with
    | lit text => rw [Segment.render, adjacentDollars_append_no_dollar _ _ hseg]; exact hrest
    | ref index =>
      have hd : Nat.digitChar index ≠ '$' := strconv.digitChar_ne_dollar index (by
        obtain ⟨_, h2⟩ := hseg
        omega)
      rw [Segment.render_ref n index hseg hn]
      simp only [List.cons_append, List.nil_append]
      rw [adjacentDollars_dollar_cons, adjacentDollars_cons_ne _ _ hd]
      simp only [renderTemplate] at hrest
      simp [hd, hrest]

theorem simultaneousFrom_renderTemplate (groups : List Str) (hn : groups.length ≤ 9)
    (segments : List Segment) (hsegs : ∀ seg ∈ segments, seg.admissible groups.length) :
    simultaneousFrom 0 groups 0 (renderTemplate segments) = expandTemplate groups segments := by
  induction segments with
  | nil => rfl
  | cons seg segs ih =>
    have hrest := ih (fun s hs => hsegs s (by simp [hs]))
    have hseg := hsegs seg (by simp)
    simp only [renderTemplate, expandTemplate, List.map_cons, List.flatten_cons]
    simp only [renderTemplate, expandTemplate] at hrest
    cases seg with
    | lit text =>
      rw [Segment.render, simultaneousFrom_append_no_dollar _ _ _ _ hseg, hrest]
      rfl
    | ref index =>
      rw [Segment.render_ref _ index hseg hn]
      obtain ⟨h1, h2⟩ := hseg
      simp only [List.cons_append, List.nil_append]
      rw [simultaneousFrom_dollar_cons 0 groups _ _ (by omega)]
      have hg := groupOfDigit_digitChar groups 0 (index - 1) (by omega) (by omega)
      have harith : 0 + 1 + (index - 1) = index := by omega
      rw [harith] at hg
      rw [hg]
      simp only [Segment.expand]
      rw [hrest]

theorem ServeHTTP_of_match (h : ReplacePathRegexHandler) (w : ResponseWriter) (req : Request)
    (re : Regexp) (whole : Str) (groups : List Str) (hre : h.regex = some re)
    (hne : h.replacement ≠ [])
    (hmatch : re.FindStringSubmatch req.URL.String = whole :: groups) :
    h.ServeHTTP w req =
      [(w, { req with
              Header := req.Header.Add ReplacedPathHeader req.URL.Path,
              URL := { req.URL with
                Path := stripBackReferences (substituteLoop 0 groups h.replacement) } })] := by
  have hpos : h.replacement.length > 0 := List.length_pos.mpr hne
  simp [ReplacePathRegexHandler.ServeHTTP, hre, hpos, hmatch]

theorem ServeHTTP_of_no_match (h : ReplacePathRegexHandler) (w : ResponseWriter)
    (req : Request) (re : Regexp) (hre : h.regex = some re) (hne : h.replacement ≠ [])
    (hmatch : re.FindStringSubmatch req.URL.String = []) :
    h.ServeHTTP w req =
      [(w, { req with Header := req.Header.Add ReplacedPathHeader req.URL.Path })] := by
  have hpos : h.replacement.length > 0 := List.length_pos.mpr hne
  simp [ReplacePathRegexHandler.ServeHTTP, hre, hpos, hmatch]

end replacepathregex

/-! ## Tokens beyond the number of groups -/

namespace strconv

theorem digitChar_isDigit (m : Nat) (h : m < 10) : regexp.isDigit (Nat.digitChar m) = true := by
  interval_cases m <;> decide

theorem toDigitsCore_isDigit (fuel : Nat) :
    ∀ (n : Nat) (ds : List Char), (∀ c ∈ ds, regexp.isDigit c = true) →
      ∀ c ∈ Nat.toDigitsCore 10 fuel n ds, regexp.isDigit c = true := by
  induction fuel with
  | zero => intro n ds hds; simpa [Nat.toDigitsCore] using hds
  | succ fuel ih =>
    intro n ds hds
    have hd : regexp.isDigit (Nat.digitChar (n % 10)) = true :=
      digitChar_isDigit _ (Nat.mod_lt _ (by decide))
    have hcons : ∀ c ∈ Nat.digitChar (n % 10) :: ds, regexp.isDigit c = true := by
      intro c hc
      rcases List.mem_cons.mp hc with e | e
      · rw [e]; exact hd
      · exact hds c e
    simp only [Nat.toDigitsCore]
    split
    · exact hcons
    · exact ih _ _ hcons

theorem toDigitsCore_ne_nil (fuel : Nat) :
    ∀ (n : Nat) (ds : List Char), ds ≠ [] → Nat.toDigitsCore 10 fuel n ds ≠ [] := by
  induction fuel with
  | zero => intro n ds hds; simpa [Nat.toDigitsCore] using hds
  | succ fuel ih =>
    intro n ds _
    simp only [Nat.toDigitsCore]
    split
    · simp
    · exact ih _ _ (by simp)

theorem Itoa_isDigit (n : Nat) : ∀ c ∈ Itoa n, regexp.isDigit c = true :=
  toDigitsCore_isDigit (n + 1) n [] (by simp)

theorem Itoa_ne_nil (n : Nat) : Itoa n ≠ [] := by
  unfold Itoa Nat.toDigits
  simp only [Nat.toDigitsCore]
  split
  · simp
  · exact toDigitsCore_ne_nil _ _ _ (by simp)

end strconv

namespace strings

theorem ReplaceAll_no_dollar (s t new : Str) (hs : '$' ∉ s) :
    ReplaceAll s ('$' :: t) new = s := by
  induction s with
  | nil => exact ReplaceAll_nil _ _ _
  | cons c cs ih =>
    have hc : c ≠ '$' := fun e => hs (by simp [e])
    have hcs : '$' ∉ cs := fun e => hs (by simp [e])
    rw [ReplaceAll_cons_ne c '$' t cs new hc, ih hcs]

theorem ReplaceAll_single_dollar (a rest t new : Str) (ha : '$' ∉ a) (hrest : '$' ∉ rest)
    (ht : t.isPrefixOf rest = false) :
    ReplaceAll (a ++ '$' :: rest) ('$' :: t) new = a ++ '$' :: rest := by
  induction a with
  | nil =>
    rw [List.nil_append, ReplaceAll_cons_not_isPrefixOf '$' t rest new ht,
      ReplaceAll_no_dollar rest t new hrest]
  | cons c cs ih =>
    have hc : c ≠ '$' := fun e => ha (by simp [e])
    have hcs : '$' ∉ cs := fun e => ha (by simp [e])
    rw [List.cons_append, ReplaceAll_cons_ne c '$' t _ new hc, ih hcs]

theorem isPrefixOf_append_of_digits (x : Str) :
    ∀ (y b : Str), (∀ c ∈ x, regexp.isDigit c = true) → regexp.startsWithDigit b = false →
      x.isPrefixOf (y ++ b) = true → x.isPrefixOf y = true := by
  induction x with
  | nil => intro y b _ _ _; simp [List.isPrefixOf]
  | cons a x ih =>
    intro y b hx hb hp
    have hax : regexp.isDigit a = true := hx a (by simp)
    cases y with
    | nil =>
      cases b with
      | nil => simp [List.isPrefixOf] at hp
      | cons c b =>
        simp only [List.nil_append, List.isPrefixOf, Bool.and_eq_true, beq_iff_eq] at hp
        simp only [regexp.startsWithDigit] at hb
        rw [← hp.1, hax] at hb
        cases hb
    | cons c y =>
      simp only [List.cons_append, List.isPrefixOf, Bool.and_eq_true, beq_iff_eq] at hp ⊢
      exact ⟨hp.1, ih y b (fun c hc => hx c (by simp [hc])) hb hp.2⟩

end strings

namespace regexp

theorem stripAux_true_digits (ds b : Str) (hds : ∀ c ∈ ds, isDigit c = true) :
    stripAux true (ds ++ b) = stripAux true b := by
  induction ds with
  | nil => rfl
  | cons d ds ih =>
    have hd : isDigit d = true := hds d (by simp)
    rw [List.cons_append, stripAux]
    simp only [hd, Bool.and_self, if_true]
    exact ih (fun c hc => hds c (by simp [hc]))

theorem stripAux_true_of_no_digit (b : Str) (hb : startsWithDigit b = false) :
    stripAux true b = stripAux false b := by
  cases b with
  | nil => rfl
  | cons c b =>
    simp only [startsWithDigit] at hb
    simp [stripAux, hb]

theorem stripAux_append_no_dollar (a s : Str) (ha : '$' ∉ a) :
    stripAux false (a ++ s) = a ++ stripAux false s := by
  induction a with
  | nil => rfl
  | cons c cs ih =>
    have hc : c ≠ '$' := fun e => ha (by simp [e])
    have hcs : '$' ∉ cs := fun e => ha (by simp [e])
    rw [List.cons_append, stripAux]
    simp [hc, ih hcs]

theorem stripBackReferences_single_token (a ds b : Str) (ha : '$' ∉ a) (hb : '$' ∉ b)
    (hds : ∀ c ∈ ds, isDigit c = true) (hne : ds ≠ []) (hbd : startsWithDigit b = false) :
    stripBackReferences (a ++ '$' :: (ds ++ b)) = a ++ b := by
  unfold stripBackReferences
  rw [stripAux_append_no_dollar a _ ha]
  have hstart : startsWithDigit (ds ++ b) = true := by
    cases ds with
    | nil => exact absurd rfl hne
    | cons d ds => exact hds d (by simp)
  rw [stripAux]
  simp only [Bool.false_and, hstart, decide_True, Bool.and_self, if_true]
  rw [stripAux_true_digits ds b hds, stripAux_true_of_no_digit b hbd,
    stripAux_false_of_no_dollar b hb]
  simp

end regexp

namespace replacepathregex

open http regexp strings

theorem substituteLoop_single_dollar (a rest : Str) (ha : '$' ∉ a) (hrest : '$' ∉ rest)
    (gs : List Str) :
    ∀ i : Nat, (∀ j, j < gs.length → (strconv.Itoa (i + 1 + j)).isPrefixOf rest = false) →
      substituteLoop i gs (a ++ '$' :: rest) = a ++ '$' :: rest := by
  induction gs with
  | nil => intro i _; rfl
  | cons g gs ih =>
    intro i hpre
    have h0 := hpre 0 (by simp)
    rw [substituteLoop, ReplaceAll_single_dollar a rest _ g ha hrest h0]
    apply ih (i + 1)
    intro j hj
    have := hpre (j + 1) (by simpa using hj)
    have harith : i + 1 + (j + 1) = i + 1 + 1 + j := by omega
    rw [harith] at this
    exact this

/-- C2 (amended): when the pattern matches with `N` captured groups (whatever their texts)
and the template is `A ++ "$k" ++ B` with `k` in decimal, `A` and `B` free of `$`, `B` not
beginning with a digit, and the decimal numeral of no group index `i`, `1 ≤ i ≤ N`, is a
prefix of the decimal numeral of `k`, the path handed to `next` is `A ++ B`: the loop leaves
the token alone and the clean-up deletes it.  (The prefix condition holds for every
`N < k ≤ 9`; it already excludes `k ≤ N` for `k ≥ 1`.) -/
theorem unmatched_token_deleted (h : ReplacePathRegexHandler) (w : ResponseWriter)
    (req : Request) (re : Regexp) (whole : Str) (groups : List Str) (a b : Str) (k : Nat)
    (hre : h.regex = some re)
    (htemplate : h.replacement = a ++ '$' :: (strconv.Itoa k ++ b))
    (hmatch : re.FindStringSubmatch req.URL.String = whole :: groups)
    (ha : '$' ∉ a) (hb : '$' ∉ b) (hbd : startsWithDigit b = false)
    (hk : ∀ i, 1 ≤ i → i ≤ groups.length →
      (strconv.Itoa i).isPrefixOf (strconv.Itoa k) = false) :
    (h.ServeHTTP w req).map (fun call => call.2.URL.Path) = [a ++ b] := by
  have hne : h.replacement ≠ [] := by rw [htemplate]; simp
  have hdig : '$' ∉ strconv.Itoa k := by
    intro hmem
    have := strconv.Itoa_isDigit k _ hmem
    revert this
    decide
  have hrest : '$' ∉ strconv.Itoa k ++ b := by
    simp only [List.mem_append, not_or]
    exact ⟨hdig, hb⟩
  rw [ServeHTTP_of_match h w req re whole groups hre hne hmatch]
  simp only [List.map]
  rw [htemplate, substituteLoop_single_dollar a _ ha hrest groups 0,
    stripBackReferences_single_token a _ b ha hb (strconv.Itoa_isDigit k)
      (strconv.Itoa_ne_nil k) hbd]
  intro j hj
  cases hp : (strconv.Itoa (0 + 1 + j)).isPrefixOf (strconv.Itoa k ++ b) with
  | false => rfl
  | true =>
    have := isPrefixOf_append_of_digits _ _ b (strconv.Itoa_isDigit _) hbd hp
    rw [hk (0 + 1 + j) (by omega) (by omega)] at this
    cases this

theorem substituteLoop_append (xs ys : List Str) :
    ∀ (i : Nat) (s : Str),
      substituteLoop i (xs ++ ys) s = substituteLoop (i + xs.length) ys (substituteLoop i xs s) := by
  induction xs with
  | nil => intro i s; rfl
  | cons x xs ih =>
    intro i s
    have harith : i + (x :: xs).length = i + 1 + xs.length := by
      simp only [List.length_cons]; omega
    rw [List.cons_append, substituteLoop, substituteLoop, ih, harith]

theorem substituteLoop_no_dollar (gs : List Str) :
    ∀ (i : Nat) (s : Str), '$' ∉ s → substituteLoop i gs s = s := by
  induction gs with
  | nil => intro i s _; rfl
  | cons g gs ih =>
    intro i s hs
    rw [substituteLoop, ReplaceAll_no_dollar s _ g hs, ih (i + 1) s hs]

theorem substituteLoop_single_digit (front back : List Str) (g : Str) (i : Nat)
    (h1 : 1 ≤ i) (h9 : i ≤ 9) (hlen : front.length = i - 1) (hg : '$' ∉ g) :
    substituteLoop 0 (front ++ g :: back) ['$', Nat.digitChar i] = g := by
  have hd : '$' ∉ [Nat.digitChar i] := by
    simp only [List.mem_singleton]
    exact fun e => strconv.digitChar_ne_dollar i h9 e.symm
  have hfront : substituteLoop 0 front ['$', Nat.digitChar i] = ['$', Nat.digitChar i] := by
    apply substituteLoop_single_dollar [] [Nat.digitChar i] (by simp) hd _ 0
    intro j hj
    have hne2 : Nat.digitChar (0 + 1 + j) ≠ Nat.digitChar i := by
      intro e
      have := strconv.digitChar_inj _ _ (by omega) h9 e
      omega
    rw [strconv.Itoa_digit (0 + 1 + j) (by omega) (by omega)]
    simp [List.isPrefixOf, hne2]
  have harith : 0 + (i - 1) + 1 = i := by omega
  rw [substituteLoop_append, hfront, hlen, substituteLoop, harith,
    strconv.Itoa_digit i h1 h9, ReplaceAll_dollar_same, ReplaceAll_nil, List.append_nil]
  exact substituteLoop_no_dollar _ _ _ hg

/-- A single-digit token is substituted whatever the number of groups: when the template is
exactly `$i` with `1 ≤ i ≤ 9`, `i ≤ N`, and the groups are free of `$`, the path handed to
`next` is the text of group `i`. -/
theorem single_digit_token_substituted (h : ReplacePathRegexHandler) (w : ResponseWriter)
    (req : Request) (re : Regexp) (whole : Str) (groups : List Str) (i : Nat)
    (hre : h.regex = some re) (htemplate : h.replacement = '$' :: strconv.Itoa i)
    (hmatch : re.FindStringSubmatch req.URL.String = whole :: groups)
    (h1 : 1 ≤ i) (h9 : i ≤ 9) (hi : i ≤ groups.length)
    (hgroups : ∀ g ∈ groups, '$' ∉ g) :
    (h.ServeHTTP w req).map (fun call => call.2.URL.Path) = [groups.getD (i - 1) []] := by
  have hne : h.replacement ≠ [] := by rw [htemplate]; simp
  have hlt : i - 1 < groups.length := by omega
  have hsplit : groups.take (i - 1) ++ groups[i - 1] :: groups.drop (i - 1 + 1) = groups := by
    rw [← List.drop_eq_getElem_cons hlt, List.take_append_drop]
  have hg : '$' ∉ groups[i - 1] := hgroups _ (List.getElem_mem hlt)
  have hlen : (groups.take (i - 1)).length = i - 1 := by
    rw [List.length_take]
    omega
  have hloop := substituteLoop_single_digit (groups.take (i - 1)) (groups.drop (i - 1 + 1))
    groups[i - 1] i h1 h9 hlen hg
  rw [hsplit] at hloop
  rw [ServeHTTP_of_match h w req re whole groups hre hne hmatch]
  simp only [List.map]
  rw [htemplate, strconv.Itoa_digit i h1 h9, hloop, stripBackReferences_of_no_dollar _ hg,
    List.getD_eq_getElem _ _ hlt]

end replacepathregex

/-! ## Theorems on `replacepathregex` -/

namespace replacepathregex

open http regexp strings

/-- C1: when the pattern matches with at most nine captured groups whose texts are free of
`$`, and the (non-empty) template is a concatenation of `$`-free literals and tokens `$i`
with `1 ≤ i ≤ N`, the path handed to `next` is the template with every token `$i` replaced
by the text of group `i` and the literals kept in place. -/
theorem substitution_on_match (h : ReplacePathRegexHandler) (w : ResponseWriter)
    (req : Request) (re : Regexp) (whole : Str) (groups : List Str)
    (segments : List Segment)
    (hre : h.regex = some re) (htemplate : h.replacement = renderTemplate segments)
    (hne : h.replacement ≠ [])
    (hmatch : re.FindStringSubmatch req.URL.String = whole :: groups)
    (hN : groups.length ≤ 9) (hgroups : ∀ g ∈ groups, '$' ∉ g)
    (hsegs : ∀ seg ∈ segments, seg.admissible groups.length) :
    (h.ServeHTTP w req).map (fun call => call.2.URL.Path) =
      [expandTemplate groups segments] := by
  rw [ServeHTTP_of_match h w req re whole groups hre hne hmatch]
  simp only [List.map]
  rw [htemplate,
    substituteLoop_eq_simultaneousFrom groups 0 _ (by omega) hgroups
      (adjacentDollars_renderTemplate _ hN _ hsegs),
    simultaneousFrom_renderTemplate groups hN segments hsegs,
    stripBackReferences_of_no_dollar _ (expandTemplate_no_dollar groups hgroups segments hsegs)]

/-- C1 at the inputs of the test suite: the template `/$2` with the groups
`https://example.test.com`, `v0/blah` gives `/v0/blah`, and the template `/sitemap/$1/$2`
with the groups `xxxx.pinzap.shop`, `xx.xml` gives `/sitemap/xxxx.pinzap.shop/xx.xml`. -/
theorem substitution_on_match_witness :
    ((ReplacePathRegexHandler.mk "/$2".toList
        (some ⟨fun url => [url, "https://example.test.com".toList, "v0/blah".toList]⟩)).ServeHTTP 0
        ⟨"GET".toList, ⟨"https".toList, "example.test.com".toList, "/admin/v0/blah".toList, []⟩,
          [], [], "example.test.com".toList⟩).map (fun call => call.2.URL.Path) =
      ["/v0/blah".toList] ∧
    ((ReplacePathRegexHandler.mk "/sitemap/$1/$2".toList
        (some ⟨fun url => [url, "xxxx.pinzap.shop".toList, "xx.xml".toList]⟩)).ServeHTTP 0
        ⟨"GET".toList, ⟨"https".toList, "xxxx.pinzap.shop".toList, "/xx.xml".toList, []⟩,
          [], [], "xxxx.pinzap.shop".toList⟩).map (fun call => call.2.URL.Path) =
      ["/sitemap/xxxx.pinzap.shop/xx.xml".toList] :=
  ⟨(substitution_on_match _ 0 _
      ⟨fun url => [url, "https://example.test.com".toList, "v0/blah".toList]⟩
      _ ["https://example.test.com".toList, "v0/blah".toList]
      [.lit "/".toList, .ref 2] rfl (by decide) (by decide) rfl (by decide) (by decide)
      (by simp [Segment.admissible])).trans (by decide),
   (substitution_on_match _ 0 _
      ⟨fun url => [url, "xxxx.pinzap.shop".toList, "xx.xml".toList]⟩
      _ ["xxxx.pinzap.shop".toList, "xx.xml".toList]
      [.lit "/sitemap/".toList, .ref 1, .lit "/".toList, .ref 2] rfl (by decide) (by decide) rfl
      (by decide) (by decide) (by simp [Segment.admissible])).trans (by decide)⟩

/-- C2 (counterexample): with one captured group and the template `/x/$10` (so `A` is
`/x/`, `k` is `10 > 1` and `B` is empty) the token is not deleted: the first iteration of
the loop replaces its first two characters `$1` by group 1, so the path is
`/x/pinzap.pinkoi.com0` and not `A ++ B`, which is `/x/`. -/
theorem unmatched_token_with_group_prefix :
    ((ReplacePathRegexHandler.mk "/x/$10".toList
        (some ⟨fun url => [url, "pinzap.pinkoi.com".toList]⟩)).ServeHTTP 0
        ⟨"GET".toList, ⟨"https".toList, "pinzap.pinkoi.com".toList, "/robots.txt".toList, []⟩,
          [], [], "pinzap.pinkoi.com".toList⟩).map (fun call => call.2.URL.Path) =
      ["/x/pinzap.pinkoi.com0".toList] ∧
    "/x/$10".toList = "/x/".toList ++ '$' :: (strconv.Itoa 10 ++ []) ∧
    ((ReplacePathRegexHandler.mk "/x/$10".toList
        (some ⟨fun url => [url, "pinzap.pinkoi.com".toList]⟩)).ServeHTTP 0
        ⟨"GET".toList, ⟨"https".toList, "pinzap.pinkoi.com".toList, "/robots.txt".toList, []⟩,
          [], [], "pinzap.pinkoi.com".toList⟩).map (fun call => call.2.URL.Path) ≠
      ["/x/".toList ++ []] := by
  refine ⟨?_, ?_, ?_⟩ <;> decide

/-- C2 (amended) at concrete inputs: with the one group `pinzap.pinkoi.com` the template
`/robots_txt/robots.txt$2` gives `/robots_txt/robots.txt`, and so does the template
`/robots_txt/robots.txt$20`, whose numeral `20` does not begin with `1`.  The template of
the test suite, `/robots_txt/$1/robots.txt$2`, gives
`/robots_txt/pinzap.pinkoi.com/robots.txt`. -/
theorem unmatched_token_deleted_witness :
    ((ReplacePathRegexHandler.mk "/robots_txt/robots.txt$2".toList
        (some ⟨fun url => [url, "pinzap.pinkoi.com".toList]⟩)).ServeHTTP 0
        ⟨"GET".toList, ⟨"https".toList, "pinzap.pinkoi.com".toList, "/robots.txt".toList, []⟩,
          [], [], "pinzap.pinkoi.com".toList⟩).map (fun call => call.2.URL.Path) =
      ["/robots_txt/robots.txt".toList] ∧
    ((ReplacePathRegexHandler.mk "/robots_txt/robots.txt$20".toList
        (some ⟨fun url => [url, "pinzap.pinkoi.com".toList]⟩)).ServeHTTP 0
        ⟨"GET".toList, ⟨"https".toList, "pinzap.pinkoi.com".toList, "/robots.txt".toList, []⟩,
          [], [], "pinzap.pinkoi.com".toList⟩).map (fun call => call.2.URL.Path) =
      ["/robots_txt/robots.txt".toList] ∧
    ((ReplacePathRegexHandler.mk "/robots_txt/$1/robots.txt$2".toList
        (some ⟨fun url => [url, "pinzap.pinkoi.com".toList]⟩)).ServeHTTP 0
        ⟨"GET".toList, ⟨"https".toList, "pinzap.pinkoi.com".toList, "/robots.txt".toList, []⟩,
          [], [], "pinzap.pinkoi.com".toList⟩).map (fun call => call.2.URL.Path) =
      ["/robots_txt/pinzap.pinkoi.com/robots.txt".toList] :=
  ⟨(unmatched_token_deleted _ 0 _ ⟨fun url => [url, "pinzap.pinkoi.com".toList]⟩ _
      ["pinzap.pinkoi.com".toList] "/robots_txt/robots.txt".toList [] 2 rfl (by decide) rfl
      (by decide) (by decide) (by decide)
      (fun i h1 hN => by
        have hi : i = 1 := by
          simp only [List.length_singleton] at hN
          omega
        subst hi
        decide)).trans (by decide),
   (unmatched_token_deleted _ 0 _ ⟨fun url => [url, "pinzap.pinkoi.com".toList]⟩ _
      ["pinzap.pinkoi.com".toList] "/robots_txt/robots.txt".toList [] 20 rfl (by decide) rfl
      (by decide) (by decide) (by decide)
      (fun i h1 hN => by
        have hi : i = 1 := by
          simp only [List.length_singleton] at hN
          omega
        subst hi
        decide)).trans (by decide),
   by decide⟩

/-- C3: when the configured pattern does not match the request's URL string (or no pattern
is configured), the path handed to `next` is the path the request came with. -/
theorem no_match_leaves_path (h : ReplacePathRegexHandler) (w : ResponseWriter)
    (req : Request)
    (hno : ∀ re, h.regex = some re → re.FindStringSubmatch req.URL.String = []) :
    (h.ServeHTTP w req).map (fun call => call.2.URL.Path) = [req.URL.Path] := by
  cases hre : h.regex with
  | none => simp [ReplacePathRegexHandler.ServeHTTP, hre]
  | some re =>
    by_cases hne : h.replacement = []
    · simp [ReplacePathRegexHandler.ServeHTTP, hre, hne]
    · rw [ServeHTTP_of_no_match h w req re hre hne (hno re hre)]
      rfl

/-- C3 at a concrete input: a pattern that does not match `https://example.test.com/home`
leaves the path `/home` in place. -/
theorem no_match_leaves_path_witness :
    ((ReplacePathRegexHandler.mk "/$2".toList
        (some ⟨fun url =>
          if url = "https://example.test.com/admin/v0/blah".toList then
            [url, "https://example.test.com".toList, "v0/blah".toList]
          else []⟩)).ServeHTTP 0
        ⟨"GET".toList, ⟨"https".toList, "example.test.com".toList, "/home".toList, []⟩,
          [], [], "example.test.com".toList⟩).map (fun call => call.2.URL.Path) =
      ["/home".toList] :=
  no_match_leaves_path _ 0 _ (fun re hre => by
    cases hre
    decide)

/-- C4 (counterexample): with the template `$1` and the groups `$2`, `X` the loop first
inserts `$2` for group 1 and then replaces that inserted text by group 2, so the path is
`X`, which is not the clean-up of the simultaneous substitution (the empty string).  With
the template `$$12` and the groups (empty), `X` a token `$2` arises where the deleted `$1`
stood, and again the path is `X` and not the clean-up of the simultaneous substitution. -/
theorem inserted_text_is_reprocessed :
    (((ReplacePathRegexHandler.mk "$1".toList
        (some ⟨fun url => [url, "$2".toList, "X".toList]⟩)).ServeHTTP 0
        ⟨"GET".toList, ⟨"https".toList, "h".toList, "/p".toList, []⟩, [], [],
          "h".toList⟩).map (fun call => call.2.URL.Path) = ["X".toList] ∧
      ((ReplacePathRegexHandler.mk "$1".toList
        (some ⟨fun url => [url, "$2".toList, "X".toList]⟩)).ServeHTTP 0
        ⟨"GET".toList, ⟨"https".toList, "h".toList, "/p".toList, []⟩, [], [],
          "h".toList⟩).map (fun call => call.2.URL.Path) ≠
        [stripBackReferences
          (simultaneousSubstitution ["$2".toList, "X".toList] "$1".toList)]) ∧
    (((ReplacePathRegexHandler.mk "$$12".toList
        (some ⟨fun url => [url, [], "X".toList]⟩)).ServeHTTP 0
        ⟨"GET".toList, ⟨"https".toList, "h".toList, "/p".toList, []⟩, [], [],
          "h".toList⟩).map (fun call => call.2.URL.Path) = ["X".toList] ∧
      ((ReplacePathRegexHandler.mk "$$12".toList
        (some ⟨fun url => [url, [], "X".toList]⟩)).ServeHTTP 0
        ⟨"GET".toList, ⟨"https".toList, "h".toList, "/p".toList, []⟩, [], [],
          "h".toList⟩).map (fun call => call.2.URL.Path) ≠
        [stripBackReferences (simultaneousSubstitution [[], "X".toList] "$$12".toList)]) := by
  refine ⟨⟨?_, ?_⟩, ⟨?_, ?_⟩⟩ <;> decide

/-- C4 (amended): when the pattern matches with at most nine captured groups whose texts
are free of `$`, and in the (non-empty) template no `$` is immediately followed by another
`$`, the path handed to `next` is the clean-up of `S`, where `S` is the ORIGINAL template
with every occurrence of a token `$i`, `1 ≤ i ≤ N`, replaced by the text of group `i` in one
simultaneous pass; the clean-up deletes every match of `$<digits>`. -/
theorem substitution_is_single_pass (h : ReplacePathRegexHandler) (w : ResponseWriter)
    (req : Request) (re : Regexp) (whole : Str) (groups : List Str)
    (hre : h.regex = some re) (hne : h.replacement ≠ [])
    (hmatch : re.FindStringSubmatch req.URL.String = whole :: groups)
    (hN : groups.length ≤ 9) (hgroups : ∀ g ∈ groups, '$' ∉ g)
    (hdollars : adjacentDollars h.replacement = false) :
    (h.ServeHTTP w req).map (fun call => call.2.URL.Path) =
      [stripBackReferences (simultaneousSubstitution groups h.replacement)] := by
  rw [ServeHTTP_of_match h w req re whole groups hre hne hmatch]
  simp only [List.map]
  rw [substituteLoop_eq_simultaneousFrom groups 0 _ (by omega) hgroups hdollars]
  rfl

/-- C4 (amended) at a concrete input: the template `/$2-$1$7$` with the groups `a1`, `b`
gives `/b-a1$`: the tokens of the two groups are replaced, the token `$7` is deleted and the
lone `$` stays. -/
theorem substitution_is_single_pass_witness :
    ((ReplacePathRegexHandler.mk "/$2-$1$7$".toList
        (some ⟨fun url => [url, "a1".toList, "b".toList]⟩)).ServeHTTP 0
        ⟨"GET".toList, ⟨"https".toList, "h".toList, "/p".toList, []⟩, [], [],
          "h".toList⟩).map (fun call => call.2.URL.Path) = ["/b-a1$".toList] :=
  (substitution_is_single_pass _ 0 _ ⟨fun url => [url, "a1".toList, "b".toList]⟩ _
    ["a1".toList, "b".toList] rfl (by decide) rfl (by decide) (by decide)
    (by decide)).trans (by decide)

/-- C5 (the code at the failing input): with ten captured groups `a`, ..., `j` and the
template `$10`, the first iteration of the loop replaces the characters `$1` of the token by
group 1, so the path becomes `a0` and not the text `j` of group 10; with the template `$9`
the path is the text `i` of group 9. -/
theorem two_digit_token_is_clobbered :
    ((ReplacePathRegexHandler.mk "$10".toList
        (some ⟨fun url => [url, "a".toList, "b".toList, "c".toList, "d".toList, "e".toList,
          "f".toList, "g".toList, "h".toList, "i".toList, "j".toList]⟩)).ServeHTTP 0
        ⟨"GET".toList, ⟨"https".toList, "h".toList, "/p".toList, []⟩, [], [],
          "h".toList⟩).map (fun call => call.2.URL.Path) = ["a0".toList] ∧
    ((ReplacePathRegexHandler.mk "$9".toList
        (some ⟨fun url => [url, "a".toList, "b".toList, "c".toList, "d".toList, "e".toList,
          "f".toList, "g".toList, "h".toList, "i".toList, "j".toList]⟩)).ServeHTTP 0
        ⟨"GET".toList, ⟨"https".toList, "h".toList, "/p".toList, []⟩, [], [],
          "h".toList⟩).map (fun call => call.2.URL.Path) = ["i".toList] := by
  constructor <;> decide

/-- C6: for a handler built by `New` whose trimmed template is non-empty, the
`X-Replaced-Path` values of the request handed to `next` are the values the request came
with followed by one new value, the path the request came with; this holds whether or not
the pattern matches. -/
theorem diagnostic_header_recorded (compile : Str → Except Str Regexp) (config : Config)
    (h : ReplacePathRegexHandler) (hnew : New compile config = .ok h)
    (htemplate : TrimSpace config.Replacement ≠ []) (w : ResponseWriter) (req : Request) :
    (h.ServeHTTP w req).map (fun call => call.2.Header.Values ReplacedPathHeader) =
      [req.Header.Values ReplacedPathHeader ++ [req.URL.Path]] := by
  unfold New at hnew
  cases hc : compile (TrimSpace config.Regex) with
  | error e => rw [hc] at hnew; cases hnew
  | ok re =>
    rw [hc] at hnew
    injection hnew with hh
    subst hh
    cases hm : re.FindStringSubmatch req.URL.String with
    | nil =>
      rw [ServeHTTP_of_no_match _ w req re rfl htemplate hm]
      simp [Header.Values_Add]
    | cons whole groups =>
      rw [ServeHTTP_of_match _ w req re whole groups rfl htemplate hm]
      simp [Header.Values_Add]

/-- C6 at concrete inputs: a request for `/admin/v0/blah` that already carries the value
`/old` ends with the values `/old`, `/admin/v0/blah` (the pattern matches and the path is
rewritten), and a request for `/home` with no such header ends with the value `/home` (the
pattern does not match). -/
theorem diagnostic_header_recorded_witness :
    ∃ h : ReplacePathRegexHandler,
      New (fun _ => .ok ⟨fun url =>
          if url = "https://example.test.com/admin/v0/blah".toList then
            [url, "https://example.test.com".toList, "v0/blah".toList]
          else []⟩) ⟨"^(.*)/admin/(.*)$".toList, " /$2 ".toList⟩ = .ok h ∧
      (h.ServeHTTP 0
        ⟨"GET".toList, ⟨"https".toList, "example.test.com".toList, "/admin/v0/blah".toList, []⟩,
          [("X-Replaced-Path".toList, ["/old".toList])], [],
          "example.test.com".toList⟩).map
        (fun call => (call.2.Header.Values ReplacedPathHeader, call.2.URL.Path)) =
        [(["/old".toList, "/admin/v0/blah".toList], "/v0/blah".toList)] ∧
      (h.ServeHTTP 0
        ⟨"GET".toList, ⟨"https".toList, "example.test.com".toList, "/home".toList, []⟩,
          [], [], "example.test.com".toList⟩).map
        (fun call => call.2.Header.Values ReplacedPathHeader) = [["/home".toList]] :=
  ⟨⟨"/$2".toList, some ⟨fun url =>
      if url = "https://example.test.com/admin/v0/blah".toList then
        [url, "https://example.test.com".toList, "v0/blah".toList]
      else []⟩⟩, rfl, by decide,
    (diagnostic_header_recorded (fun _ => .ok ⟨fun url =>
        if url = "https://example.test.com/admin/v0/blah".toList then
          [url, "https://example.test.com".toList, "v0/blah".toList]
        else []⟩) ⟨"^(.*)/admin/(.*)$".toList, " /$2 ".toList⟩
      ⟨"/$2".toList, some ⟨fun url =>
        if url = "https://example.test.com/admin/v0/blah".toList then
          [url, "https://example.test.com".toList, "v0/blah".toList]
        else []⟩⟩ rfl (by decide) 0 _).trans (by decide)⟩

end replacepathregex

/-! ## Further theorems on `domainrobots` -/

namespace domainrobots

open http

theorem ServeHTTP_eq (h : DomainRobotsHandler) (w : ResponseWriter) (r : Request) :
    h.ServeHTTP w r =
      [(w, { r with Host := h.getTargetS3URL (r.Host.takeWhile (fun c => c ≠ ':')) })] := by
  obtain ⟨rest, hrest⟩ := strings.Split_colon r.Host
  simp only [DomainRobotsHandler.ServeHTTP, hrest]
  rw [if_neg (getTargetS3URL_ne_nil h _)]

/-- C11: `New` (a `nil` config counting as the empty config) returns the error
`s3Bucket is required` exactly when `S3Bucket` is empty, whatever the path fields are; it
returns the error `robotsTxtPath or sitemapPath is required` exactly when `S3Bucket` is
non-empty and both `RobotsTxtPath` and `SitemapPath` are empty; and in every other case, and
only then, it returns a handler and no error.  The two errors are different. -/
theorem New_fails_exactly_when_invalid (config : Option Config) :
    (New config = .error "s3Bucket is required".toList ↔
      (config.getD emptyConfig).S3Bucket = []) ∧
    (New config = .error "robotsTxtPath or sitemapPath is required".toList ↔
      (config.getD emptyConfig).S3Bucket ≠ [] ∧
        (config.getD emptyConfig).RobotsTxtPath = [] ∧
        (config.getD emptyConfig).SitemapPath = []) ∧
    ((∃ h, New config = .ok h) ↔
      (config.getD emptyConfig).S3Bucket ≠ [] ∧
        ¬ ((config.getD emptyConfig).RobotsTxtPath = [] ∧
          (config.getD emptyConfig).SitemapPath = [])) ∧
    "s3Bucket is required".toList ≠ "robotsTxtPath or sitemapPath is required".toList := by
  have hne : "s3Bucket is required".toList ≠
      "robotsTxtPath or sitemapPath is required".toList := by decide
  have hne2 : "robotsTxtPath or sitemapPath is required".toList ≠
      "s3Bucket is required".toList := fun e => hne e.symm
  cases config with
  | none =>
    refine ⟨?_, ?_, ?_, hne⟩
    · simp [New, emptyConfig]
    · simp [New, emptyConfig]
    · simp [New, emptyConfig]
  | some c =>
    refine ⟨?_, ?_, ?_, hne⟩
    · by_cases hp : c.Protocol = [] <;> by_cases hb : c.S3Bucket = [] <;>
        by_cases hr : c.RobotsTxtPath = [] ∧ c.SitemapPath = [] <;>
        simp [New, hp, hb, hr, hne, hne2]
    · by_cases hp : c.Protocol = [] <;> by_cases hb : c.S3Bucket = [] <;>
        by_cases hr : c.RobotsTxtPath = [] ∧ c.SitemapPath = [] <;>
        simp [New, hp, hb, hr, hne, hne2]
    · by_cases hp : c.Protocol = [] <;> by_cases hb : c.S3Bucket = [] <;>
        by_cases hr : c.RobotsTxtPath = [] ∧ c.SitemapPath = [] <;>
        simp [New, hp, hb, hr]

/-- C13: for every handler (in particular every handler built by `New`) and every request,
whatever its path and host, `next` is called exactly once, with the response writer the
handler was called with; the request it receives has the resolved target as its host, and
its method, URL (path and query included), headers and body are those of the incoming
request. -/
theorem resolver_forwards_once (h : DomainRobotsHandler) (w : ResponseWriter) (r : Request) :
    ∃ r2 : Request,
      h.ServeHTTP w r = [(w, r2)] ∧
      r2.Host = h.getTargetS3URL (r.Host.takeWhile (fun c => c ≠ ':')) ∧
      r2.Method = r.Method ∧ r2.URL = r.URL ∧ r2.Header = r.Header ∧ r2.Body = r.Body :=
  ⟨_, ServeHTTP_eq h w r, rfl, rfl, rfl, rfl, rfl⟩

/-- C18: for every config and every domain `getTargetS3URL` returns a non-empty string that
begins with `https://`, so the branch `targetURL == ""` of `ServeHTTP` is never taken: the
request handed to `next` always has its host overwritten by the target. -/
theorem target_never_empty (h : DomainRobotsHandler) (d : Str) :
    h.getTargetS3URL d ≠ [] ∧
    (∃ rest, h.getTargetS3URL d = "https://".toList ++ rest) ∧
    ∀ (w : ResponseWriter) (r : Request),
      (h.ServeHTTP w r).map (fun call => call.2.Host) =
        [h.getTargetS3URL (r.Host.takeWhile (fun c => c ≠ ':'))] := by
  refine ⟨getTargetS3URL_ne_nil h d, ?_, fun w r => ?_⟩
  · rw [getTargetS3URL_eq]
    simp only [List.append_assoc]
    exact ⟨_, rfl⟩
  · rw [ServeHTTP_eq]
    rfl

/-- C19: for a fixed config `getTargetS3URL` is injective in the domain: two domains with
the same target are the same domain. -/
theorem target_injective (h : DomainRobotsHandler) (d1 d2 : Str)
    (heq : h.getTargetS3URL d1 = h.getTargetS3URL d2) : d1 = d2 := by
  rw [getTargetS3URL_eq, getTargetS3URL_eq] at heq
  simp only [List.append_assoc] at heq
  have h1 := List.append_cancel_left heq
  have h2 := List.append_cancel_left h1
  have h3 := List.append_cancel_left h2
  have h4 := List.append_cancel_left h3
  have h5 := List.append_cancel_left h4
  have h6 := List.append_cancel_left h5
  exact List.append_cancel_right h6

/-- C19 at concrete inputs: the domain `example.com`, spelled in two ways, has one target,
and the domains `a.example.com` and `b.example.com` have different targets. -/
theorem target_injective_witness :
    "example.com".toList = "example".toList ++ ".com".toList ∧
    (DomainRobotsHandler.mk ⟨"test-bucket".toList, "us-east-1".toList, [], [],
        "robots.txt".toList, [], []⟩).getTargetS3URL "a.example.com".toList ≠
      (DomainRobotsHandler.mk ⟨"test-bucket".toList, "us-east-1".toList, [], [],
        "robots.txt".toList, [], []⟩).getTargetS3URL "b.example.com".toList :=
  ⟨target_injective
      (DomainRobotsHandler.mk ⟨"test-bucket".toList, "us-east-1".toList, [], [],
        "robots.txt".toList, [], []⟩) "example.com".toList
      ("example".toList ++ ".com".toList) (by decide),
   fun e => absurd (target_injective _ _ _ e) (by decide)⟩

end domainrobots

/-! ## Further theorems on `replacepathregex` -/

namespace http

theorem Header.Values_Add_of_ne (h : Header) (key other v : Str) (hne : other ≠ key) :
    (h.Add key v).Values other = h.Values other := by
  induction h with
  | nil =>
    have hne2 : ¬ (key = other) := fun e => hne e.symm
    simp [Header.Add, Header.Values, hne2]
  | cons e rest ih =>
    obtain ⟨k, vs⟩ := e
    by_cases hk : k = key
    · subst hk
      have hne2 : ¬ (k = other) := fun e => hne e.symm
      simp [Header.Add, Header.Values, hne2]
    · by_cases hk2 : k = other
      · subst hk2
        simp [Header.Add, Header.Values, hk]
      · simp [Header.Add, Header.Values, hk, hk2, ih]

end http

namespace strings

theorem TrimSpace_of_all_space (s : Str) (hs : ∀ c ∈ s, isSpace c = true) :
    TrimSpace s = [] := by
  have h1 : s.dropWhile isSpace = [] := List.dropWhile_eq_nil_iff.mpr hs
  simp [TrimSpace, h1]

end strings

namespace regexp

theorem startsWithDigit_stripAux_true (s : Str) : startsWithDigit (stripAux true s) = false := by
  induction s with
  | nil => rfl
  | cons c cs ih =>
    rw [stripAux]
    by_cases hd : isDigit c = true
    · simp only [hd, Bool.and_self, if_true]
      exact ih
    · have hd2 : isDigit c = false := by simpa using hd
      by_cases hs : (decide (c = '$') && startsWithDigit cs) = true
      · simp only [hd2, Bool.and_false, hs, if_true]
        simpa using ih
      · simp only [hd2, Bool.and_false, hs]
        simpa [startsWithDigit] using hd2

theorem startsWithDigit_stripAux_false (s : Str) (hs : startsWithDigit s = false) :
    startsWithDigit (stripAux false s) = false := by
  cases s with
  | nil => rfl
  | cons c cs =>
    have hd : isDigit c = false := hs
    rw [stripAux]
    by_cases ht : (decide (c = '$') && startsWithDigit cs) = true
    · simp only [Bool.false_and, ht, if_true]
      simpa using startsWithDigit_stripAux_true cs
    · simp only [Bool.false_and, ht]
      simpa [startsWithDigit] using hd

/-- Deleting the matches of `\$\d+` leaves no match behind. -/
theorem hasBackReference_stripAux (s : Str) :
    ∀ b : Bool, hasBackReference (stripAux b s) = false := by
  induction s with
  | nil => intro b; rfl
  | cons c cs ih =>
    intro b
    rw [stripAux]
    by_cases hd : (b && isDigit c) = true
    · simp only [hd, if_true]
      exact ih true
    · by_cases ht : (decide (c = '$') && startsWithDigit cs) = true
      · simp only [hd, ht, if_true]
        simpa using ih true
      · simp only [hd, ht]
        have hrest := ih false
        by_cases hc : c = '$'
        · have hsd : startsWithDigit cs = false := by
            cases hx : startsWithDigit cs with
            | false => rfl
            | true => exact absurd (by simp [hc, hx]) ht
          simp [hasBackReference, hrest, startsWithDigit_stripAux_false cs hsd]
        · simp [hasBackReference, hrest, hc]

theorem hasBackReference_stripBackReferences (s : Str) :
    hasBackReference (stripBackReferences s) = false :=
  hasBackReference_stripAux s false

/-- What `hasBackReference` decides: the string has no `$` immediately followed by a
digit. -/
theorem hasBackReference_eq_false_iff (s : Str) :
    hasBackReference s = false ↔
      ∀ (a : Str) (d : Char) (b : Str), s = a ++ '$' :: d :: b → isDigit d = false := by
  induction s with
  | nil =>
    constructor
    · intro _ a d b h
      cases a <;> simp at h
    · intro _; rfl
  | cons c cs ih =>
    constructor
    · intro h a d b hs
      simp only [hasBackReference, Bool.or_eq_false_iff] at h
      cases a with
      | nil =>
        simp only [List.nil_append, List.cons.injEq] at hs
        obtain ⟨hc, hcs⟩ := hs
        have h1 := h.1
        rw [hc, hcs] at h1
        simpa [startsWithDigit] using h1
      | cons x a =>
        simp only [List.cons_append, List.cons.injEq] at hs
        exact ih.mp h.2 a d b hs.2
    · intro h
      simp only [hasBackReference, Bool.or_eq_false_iff]
      constructor
      · by_cases hc : c = '$'
        · cases cs with
          | nil => simp [startsWithDigit]
          | cons d b =>
            have := h [] d b (by simp [hc])
            simp [startsWithDigit, this]
        · simp [hc]
      · exact ih.mpr (fun a d b hs => h (c :: a) d b (by simp [hs]))

end regexp

namespace replacepathregex

open http regexp strings

/-- C12: for every handler and every request, in every branch (no pattern or empty
template, no match, match), `next` is called exactly once, with the response writer the
handler was called with and the request as mutated; the method, host, body, URL scheme, URL
host and query of that request, and its values under every header name other than
`X-Replaced-Path`, are those of the incoming request. -/
theorem rewriter_forwards_once (h : ReplacePathRegexHandler) (w : ResponseWriter)
    (req : Request) :
    ∃ req2 : Request,
      h.ServeHTTP w req = [(w, req2)] ∧
      req2.Method = req.Method ∧ req2.Host = req.Host ∧ req2.Body = req.Body ∧
      req2.URL.Scheme = req.URL.Scheme ∧ req2.URL.Host = req.URL.Host ∧
      req2.URL.RawQuery = req.URL.RawQuery ∧
      ∀ key : Str, key ≠ ReplacedPathHeader →
        req2.Header.Values key = req.Header.Values key := by
  cases hre : h.regex with
  | none =>
    exact ⟨req, by simp [ReplacePathRegexHandler.ServeHTTP, hre], rfl, rfl, rfl, rfl, rfl,
      rfl, fun _ _ => rfl⟩
  | some re =>
    by_cases hne : h.replacement = []
    · exact ⟨req, by simp [ReplacePathRegexHandler.ServeHTTP, hre, hne], rfl, rfl, rfl, rfl,
        rfl, rfl, fun _ _ => rfl⟩
    · cases hm : re.FindStringSubmatch req.URL.String with
      | nil =>
        exact ⟨_, ServeHTTP_of_no_match h w req re hre hne hm, rfl, rfl, rfl, rfl, rfl, rfl,
          fun key hkey => Header.Values_Add_of_ne _ _ key _ hkey⟩
      | cons whole groups =>
        exact ⟨_, ServeHTTP_of_match h w req re whole groups hre hne hm, rfl, rfl, rfl, rfl,
          rfl, rfl, fun key hkey => Header.Values_Add_of_ne _ _ key _ hkey⟩

/-- At the request `https://example.test.com/admin/admin/x` the pattern
`^(.*)/admin/(.*)$` with the template `/$2` gives the path `/x` after one pass, and a second
pass leaves it there: the greedy first group ends at the last `/admin/`, and the rewritten
URL no longer matches. -/
theorem admin_template_second_pass_fixed :
    ((ReplacePathRegexHandler.mk "/$2".toList (some adminPattern)).ServeHTTP 0
        ⟨"GET".toList, ⟨"https".toList, "example.test.com".toList, "/admin/admin/x".toList, []⟩,
          [], [], "example.test.com".toList⟩).map (fun call => call.2.URL.Path) =
      ["/x".toList] ∧
    (((ReplacePathRegexHandler.mk "/$2".toList (some adminPattern)).ServeHTTP 0
        ⟨"GET".toList, ⟨"https".toList, "example.test.com".toList, "/admin/admin/x".toList, []⟩,
          [], [], "example.test.com".toList⟩).flatMap
        (fun call =>
          (ReplacePathRegexHandler.mk "/$2".toList (some adminPattern)).ServeHTTP
            call.1 call.2)).map (fun call => call.2.URL.Path) =
      ["/x".toList] := by
  constructor <;> decide

/-- C14: the rewriter is not idempotent.  With the pattern `^(.*)/admin/(.*)$`, the template
`/admin/v2/$2` and the request `https://example.test.com/admin/users`, one call of
`ServeHTTP` leaves the path `/admin/v2/users`, and a second call on the request so rewritten
leaves the path `/admin/v2/v2/users`. -/
theorem rewriter_not_idempotent :
    ∃ (h : ReplacePathRegexHandler) (req : Request),
      New (fun pattern =>
          if pattern = "^(.*)/admin/(.*)$".toList then .ok adminPattern
          else .error "unsupported pattern".toList)
        ⟨"^(.*)/admin/(.*)$".toList, "/admin/v2/$2".toList⟩ = .ok h ∧
      req.URL.String = "https://example.test.com/admin/users".toList ∧
      (h.ServeHTTP 0 req).map (fun call => call.2.URL.Path) = ["/admin/v2/users".toList] ∧
      ((h.ServeHTTP 0 req).flatMap (fun call => h.ServeHTTP call.1 call.2)).map
        (fun call => call.2.URL.Path) = ["/admin/v2/v2/users".toList] ∧
      (h.ServeHTTP 0 req).map (fun call => call.2.URL.Path) ≠
        ((h.ServeHTTP 0 req).flatMap (fun call => h.ServeHTTP call.1 call.2)).map
          (fun call => call.2.URL.Path) :=
  ⟨⟨"/admin/v2/$2".toList, some adminPattern⟩,
    ⟨"GET".toList, ⟨"https".toList, "example.test.com".toList, "/admin/users".toList, []⟩,
      [], [], "example.test.com".toList⟩,
    rfl, by decide, by decide, by decide, by decide⟩

/-- C15: when the pattern compiles and the configured replacement is empty or consists of
white space only, `New` succeeds, and for every request the handler calls `next` once with
the request exactly as it came: the path is unchanged and no `X-Replaced-Path` value is
added, whether or not the pattern matches the URL. -/
theorem empty_template_passes_through (compile : Str → Except Str Regexp) (config : Config)
    (re : Regexp) (hcompile : compile (TrimSpace config.Regex) = .ok re)
    (hblank : ∀ c ∈ config.Replacement, isSpace c = true) :
    ∃ h : ReplacePathRegexHandler,
      New compile config = .ok h ∧
      ∀ (w : ResponseWriter) (req : Request), h.ServeHTTP w req = [(w, req)] := by
  refine ⟨⟨TrimSpace config.Replacement, some re⟩, by simp [New, hcompile], fun w req => ?_⟩
  simp [ReplacePathRegexHandler.ServeHTTP, TrimSpace_of_all_space _ hblank]

/-- C15 at a concrete input: with the pattern `^(.*)/admin/(.*)$` and a replacement made of
blanks and a tab, the request `https://example.test.com/admin/v0/blah`, which the pattern
matches, is forwarded unchanged. -/
theorem empty_template_passes_through_witness :
    ∃ h : ReplacePathRegexHandler,
      New (fun _ => .ok adminPattern) ⟨"^(.*)/admin/(.*)$".toList, "  \t ".toList⟩ = .ok h ∧
      adminPattern.FindStringSubmatch "https://example.test.com/admin/v0/blah".toList ≠ [] ∧
      h.ServeHTTP 0
        ⟨"GET".toList, ⟨"https".toList, "example.test.com".toList, "/admin/v0/blah".toList, []⟩,
          [], [], "example.test.com".toList⟩ =
        [(0, ⟨"GET".toList,
          ⟨"https".toList, "example.test.com".toList, "/admin/v0/blah".toList, []⟩,
          [], [], "example.test.com".toList⟩)] :=
  let ⟨h, hnew, hall⟩ :=
    empty_template_passes_through (fun _ => .ok adminPattern)
      ⟨"^(.*)/admin/(.*)$".toList, "  \t ".toList⟩ adminPattern rfl (by decide)
  ⟨h, hnew, by decide, hall 0 _⟩

/-- C16: whatever the template, the number of groups and their texts (texts with `$` or
digits included), the path assigned on a match has no `$` immediately followed by an ASCII
digit: deleting the matches of `$<digits>` never creates a new one. -/
theorem no_back_reference_survives (h : ReplacePathRegexHandler) (w : ResponseWriter)
    (req : Request) (re : Regexp) (whole : Str) (groups : List Str)
    (hre : h.regex = some re) (hne : h.replacement ≠ [])
    (hmatch : re.FindStringSubmatch req.URL.String = whole :: groups) :
    ∃ req2 : Request,
      h.ServeHTTP w req = [(w, req2)] ∧
      hasBackReference req2.URL.Path = false ∧
      ∀ (a : Str) (d : Char) (b : Str),
        req2.URL.Path = a ++ '$' :: d :: b → isDigit d = false :=
  ⟨_, ServeHTTP_of_match h w req re whole groups hre hne hmatch,
    hasBackReference_stripBackReferences _,
    (hasBackReference_eq_false_iff _).mp (hasBackReference_stripBackReferences _)⟩

/-- C16 at a concrete input: with the template `$1$2x$3` and the groups `$`, `5` the loop
builds `$5x$3`, a string with a `$5` that is in neither the template nor a group, and the
path assigned is `x`. -/
theorem no_back_reference_survives_witness :
    (∃ req2 : Request,
      (ReplacePathRegexHandler.mk "$1$2x$3".toList
        (some ⟨fun url => [url, "$".toList, "5".toList]⟩)).ServeHTTP 0
        ⟨"GET".toList, ⟨"https".toList, "h".toList, "/p".toList, []⟩, [], [],
          "h".toList⟩ = [(0, req2)] ∧
      hasBackReference req2.URL.Path = false) ∧
    substituteLoop 0 ["$".toList, "5".toList] "$1$2x$3".toList = "$5x$3".toList ∧
    ((ReplacePathRegexHandler.mk "$1$2x$3".toList
        (some ⟨fun url => [url, "$".toList, "5".toList]⟩)).ServeHTTP 0
        ⟨"GET".toList, ⟨"https".toList, "h".toList, "/p".toList, []⟩, [], [],
          "h".toList⟩).map (fun call => call.2.URL.Path) = ["x".toList] :=
  ⟨(no_back_reference_survives
        (ReplacePathRegexHandler.mk "$1$2x$3".toList
          (some ⟨fun url => [url, "$".toList, "5".toList]⟩)) 0
        ⟨"GET".toList, ⟨"https".toList, "h".toList, "/p".toList, []⟩, [], [], "h".toList⟩
        ⟨fun url => [url, "$".toList, "5".toList]⟩ _ ["$".toList, "5".toList]
        rfl (by decide) rfl).elim (fun r hr => ⟨r, hr.1, hr.2.1⟩),
   by decide, by decide⟩

/-- C17: when the pattern matches with one group of text `g` and the template is `$1`, the
path assigned is `g` with every match of `$<digits>` deleted; so when `g` itself has a `$`
immediately followed by a digit, the path differs from `g`. -/
theorem cleanup_strips_captured_text (h : ReplacePathRegexHandler) (w : ResponseWriter)
    (req : Request) (re : Regexp) (whole g : Str)
    (hre : h.regex = some re) (htemplate : h.replacement = "$1".toList)
    (hmatch : re.FindStringSubmatch req.URL.String = [whole, g]) :
    (h.ServeHTTP w req).map (fun call => call.2.URL.Path) = [stripBackReferences g] ∧
    (hasBackReference g = true →
      (h.ServeHTTP w req).map (fun call => call.2.URL.Path) ≠ [g]) := by
  have hne : h.replacement ≠ [] := by rw [htemplate]; decide
  have hloop : substituteLoop 0 [g] "$1".toList = g := by
    have hi : strconv.Itoa (0 + 1) = ['1'] := rfl
    have hs : "$1".toList = ['$', '1'] := rfl
    rw [substituteLoop, hi, hs, ReplaceAll_dollar_same, ReplaceAll_nil, List.append_nil]
    rfl
  have hpath : (h.ServeHTTP w req).map (fun call => call.2.URL.Path) =
      [stripBackReferences g] := by
    rw [ServeHTTP_of_match h w req re whole [g] hre hne hmatch]
    simp only [List.map]
    rw [htemplate, hloop]
  refine ⟨hpath, fun hg e => ?_⟩
  rw [hpath] at e
  have hstrip : stripBackReferences g = g := by simpa using e
  have hfalse := hasBackReference_stripBackReferences g
  rw [hstrip, hg] at hfalse
  cases hfalse

/-- C17 at a concrete input: the captured text `price/$5/x` under the template `$1` gives
the path `price//x`. -/
theorem cleanup_strips_captured_text_witness :
    ((ReplacePathRegexHandler.mk "$1".toList
        (some ⟨fun url => [url, "price/$5/x".toList]⟩)).ServeHTTP 0
        ⟨"GET".toList, ⟨"https".toList, "h".toList, "/price/$5/x".toList, []⟩, [], [],
          "h".toList⟩).map (fun call => call.2.URL.Path) = ["price//x".toList] ∧
    ((ReplacePathRegexHandler.mk "$1".toList
        (some ⟨fun url => [url, "price/$5/x".toList]⟩)).ServeHTTP 0
        ⟨"GET".toList, ⟨"https".toList, "h".toList, "/price/$5/x".toList, []⟩, [], [],
          "h".toList⟩).map (fun call => call.2.URL.Path) ≠ ["price/$5/x".toList] :=
  ⟨(cleanup_strips_captured_text _ 0 _ ⟨fun url => [url, "price/$5/x".toList]⟩ _
      "price/$5/x".toList rfl rfl rfl).1.trans (by decide),
   (cleanup_strips_captured_text _ 0 _ ⟨fun url => [url, "price/$5/x".toList]⟩ _
      "price/$5/x".toList rfl rfl rfl).2 (by decide)⟩

end replacepathregex
